import Mathlib

/-!
Verification of the ISMCTS engine in `src/ISMCTS.py`.

The Python source is shallowly embedded below.  Machine floats become exact
rationals (`ℚ`); a numpy length-2 array `[lo, hi]` becomes the `Interval`
structure; Python `None`-able fields become `Option`; fallible operations
(dict `KeyError`, `assert` failures, `ZeroDivisionError`, terminal-outcome
lookup with a `None` key) return `none`; the mutation of node objects is
explicit state passing (a `visit` returns the updated node); the recursion of
`visit` is bounded by explicit fuel (the real recursion is bounded by game
length, which the embedding does not know); the shared numpy random generator
becomes an explicit stream of naturals, consumed one draw at a time, where a
draw from a distribution picks an element of its support.

External collaborators (the `InfoSet` game interface and the `Model` oracle,
both out of scope per the spec) are fields of the `Env` structure, as are two
functions from modules of this repository that are not under `src/`:
`utils.perturb_prob_simplex` (spec §4.4) and `numpy.sqrt`.  A faithful
spec-modelled instance of the former, `perturb_prob_simplex_spec`, is defined
below and used for concrete runs.
-/

namespace ISMCTS

/-- A numpy pair `[lo, hi]` used as a value interval (`basic_types.Interval`). -/
structure Interval where
  lo : ℚ
  hi : ℚ
deriving DecidableEq, Repr, Inhabited

/-- Componentwise interval addition (numpy `+` on length-2 arrays). -/
def Interval.add (a b : Interval) : Interval := ⟨a.lo + b.lo, a.hi + b.hi⟩

/-- `to_interval`: a scalar becomes the degenerate interval `[v, v]`. -/
def to_interval (v : ℚ) : Interval := ⟨v, v⟩

/-- `Constants.EPS = 0.05`. -/
def EPS : ℚ := 1/20

/-- `Constants.c_PUCT = 1.0`. -/
def c_PUCT : ℚ := 1

/-- The global `CHEAT = True` toggle: children are model-evaluated eagerly. -/
def CHEAT : Bool := true

/-- The external world of the engine: the `InfoSet` interface and the `Model`
oracle (both out of scope per the spec), plus `utils.perturb_prob_simplex`
and `numpy.sqrt`, which are code this repository uses but that is not under
`src/`.  Game outcomes are modelled from the spec (§3) as an optional mapping
player → value, so an outcome lookup needs a valid player index.  Model
evaluations return `(P, V, Vc)` resp. `(H, V, Vc)` and may depend on the
owner passed to them. -/
structure Env (ι : Type) where
  get_current_player : ι → Nat
  get_game_outcome : ι → Option (List ℚ)
  get_actions : ι → List Nat
  apply : ι → Nat → ι
  has_hidden_info : ι → Bool
  get_H_mask : ι → List Bool
  instantiate_hidden_state : ι → Nat → ι
  /-- `create_spawned_tree`'s clone-and-null loop: clone the info set and null
  every player's private cards except the current player's. -/
  redact : ι → ι
  action_eval : Option Nat → ι → List ℚ × ℚ × List ℚ
  hidden_eval : Option Nat → ι → List ℚ × ℚ × List ℚ
  /-- Modelled from the spec: `utils.perturb_prob_simplex` (not under `src/`),
  §4.4: an interval bounding the weighted mixture of child values under any
  per-component perturbation of the weights of size at most `eps` that stays
  inside the probability simplex. -/
  perturb_prob_simplex : List Interval → List ℚ → ℚ → Interval
  /-- `numpy.sqrt`, external library code. -/
  sqrt : ℚ → ℚ

/-- The node tree.  `act` is `ActionNode`, `samp` is `SamplingNode`.
Children are the ordered `children` dict: association list in insertion
order, the position being the edge index.  The `cp`, `game_outcome` and
`actions` fields cached by the Python constructors are pure functions of the
info set and are recomputed from the environment instead of stored. -/
inductive Node (ι : Type) : Type where
  | act (info_set : ι) (tree_owner : Option Nat) (Q : Interval) (N : Nat)
        (residual_Q_to_V : Interval) (children : List (Nat × Node ι))
        (P : Option (List ℚ)) (V : Option ℚ) (Vc : Option (List ℚ))
        (spawned_tree : Option (Node ι)) (expanded : Bool)
  | samp (info_set : ι) (tree_owner : Option Nat) (Q : Interval) (N : Nat)
         (residual_Q_to_V : Interval) (children : List (Nat × Node ι))
         (H : Option (List ℚ)) (V : Option ℚ) (Vc : Option (List ℚ))
         (H_mask : List Bool) (expanded : Bool)

namespace Node

variable {ι : Type}

def info_set : Node ι → ι
  | act i _ _ _ _ _ _ _ _ _ _ => i
  | samp i _ _ _ _ _ _ _ _ _ _ => i

def tree_owner : Node ι → Option Nat
  | act _ o _ _ _ _ _ _ _ _ _ => o
  | samp _ o _ _ _ _ _ _ _ _ _ => o

def Q : Node ι → Interval
  | act _ _ q _ _ _ _ _ _ _ _ => q
  | samp _ _ q _ _ _ _ _ _ _ _ => q

def N : Node ι → Nat
  | act _ _ _ n _ _ _ _ _ _ _ => n
  | samp _ _ _ n _ _ _ _ _ _ _ => n

def residual_Q_to_V : Node ι → Interval
  | act _ _ _ _ r _ _ _ _ _ _ => r
  | samp _ _ _ _ r _ _ _ _ _ _ => r

def children : Node ι → List (Nat × Node ι)
  | act _ _ _ _ _ c _ _ _ _ _ => c
  | samp _ _ _ _ _ c _ _ _ _ _ => c

def P : Node ι → Option (List ℚ)
  | act _ _ _ _ _ _ p _ _ _ _ => p
  | samp _ _ _ _ _ _ _ _ _ _ _ => none

def V : Node ι → Option ℚ
  | act _ _ _ _ _ _ _ v _ _ _ => v
  | samp _ _ _ _ _ _ _ v _ _ _ => v

def Vc : Node ι → Option (List ℚ)
  | act _ _ _ _ _ _ _ _ vc _ _ => vc
  | samp _ _ _ _ _ _ _ _ vc _ _ => vc

def H : Node ι → Option (List ℚ)
  | act _ _ _ _ _ _ _ _ _ _ _ => none
  | samp _ _ _ _ _ _ h _ _ _ _ => h

def H_mask : Node ι → List Bool
  | act _ _ _ _ _ _ _ _ _ _ _ => []
  | samp _ _ _ _ _ _ _ _ _ m _ => m

def spawned_tree : Node ι → Option (Node ι)
  | act _ _ _ _ _ _ _ _ _ s _ => s
  | samp _ _ _ _ _ _ _ _ _ _ _ => none

def expanded : Node ι → Bool
  | act _ _ _ _ _ _ _ _ _ _ e => e
  | samp _ _ _ _ _ _ _ _ _ _ e => e

def isAct : Node ι → Bool
  | act _ _ _ _ _ _ _ _ _ _ _ => true
  | samp _ _ _ _ _ _ _ _ _ _ _ => false

/-- `terminal()`: a game outcome is present. -/
def terminal (env : Env ι) (n : Node ι) : Bool :=
  (env.get_game_outcome n.info_set).isSome

def bumpN : Node ι → Node ι
  | act i o q n r c p v vc s e => act i o q (n+1) r c p v vc s e
  | samp i o q n r c h v vc m e => samp i o q (n+1) r c h v vc m e

def setQ (x : Interval) : Node ι → Node ι
  | act i o _ n r c p v vc s e => act i o x n r c p v vc s e
  | samp i o _ n r c h v vc m e => samp i o x n r c h v vc m e

def setResidual (x : Interval) : Node ι → Node ι
  | act i o q n _ c p v vc s e => act i o q n x c p v vc s e
  | samp i o q n _ c h v vc m e => samp i o q n x c h v vc m e

def setChildren (x : List (Nat × Node ι)) : Node ι → Node ι
  | act i o q n r _ p v vc s e => act i o q n r x p v vc s e
  | samp i o q n r _ h v vc m e => samp i o q n r x h v vc m e

def setSpawned (x : Option (Node ι)) : Node ι → Node ι
  | act i o q n r c p v vc _ e => act i o q n r c p v vc x e
  | samp i o q n r c h v vc m e => samp i o q n r c h v vc m e

def setExpanded (x : Bool) : Node ι → Node ι
  | act i o q n r c p v vc s _ => act i o q n r c p v vc s x
  | samp i o q n r c h v vc m _ => samp i o q n r c h v vc m x

def setOwner (x : Option Nat) : Node ι → Node ι
  | act i _ q n r c p v vc s e => act i x q n r c p v vc s e
  | samp i _ q n r c h v vc m e => samp i x q n r c h v vc m e

end Node

section SetterLemmas

variable {ι : Type} (n : Node ι)

@[simp] theorem info_set_bumpN : n.bumpN.info_set = n.info_set := by cases n <;> rfl
@[simp] theorem tree_owner_bumpN : n.bumpN.tree_owner = n.tree_owner := by cases n <;> rfl
@[simp] theorem Q_bumpN : n.bumpN.Q = n.Q := by cases n <;> rfl
@[simp] theorem N_bumpN : n.bumpN.N = n.N + 1 := by cases n <;> rfl
@[simp] theorem residual_Q_to_V_bumpN : n.bumpN.residual_Q_to_V = n.residual_Q_to_V := by cases n <;> rfl
@[simp] theorem children_bumpN : n.bumpN.children = n.children := by cases n <;> rfl
@[simp] theorem P_bumpN : n.bumpN.P = n.P := by cases n <;> rfl
@[simp] theorem V_bumpN : n.bumpN.V = n.V := by cases n <;> rfl
@[simp] theorem Vc_bumpN : n.bumpN.Vc = n.Vc := by cases n <;> rfl
@[simp] theorem H_bumpN : n.bumpN.H = n.H := by cases n <;> rfl
@[simp] theorem H_mask_bumpN : n.bumpN.H_mask = n.H_mask := by cases n <;> rfl
@[simp] theorem spawned_tree_bumpN : n.bumpN.spawned_tree = n.spawned_tree := by cases n <;> rfl
@[simp] theorem expanded_bumpN : n.bumpN.expanded = n.expanded := by cases n <;> rfl
@[simp] theorem isAct_bumpN : n.bumpN.isAct = n.isAct := by cases n <;> rfl

@[simp] theorem info_set_setQ (x : Interval) : (n.setQ x).info_set = n.info_set := by cases n <;> rfl
@[simp] theorem tree_owner_setQ (x : Interval) : (n.setQ x).tree_owner = n.tree_owner := by cases n <;> rfl
@[simp] theorem Q_setQ (x : Interval) : (n.setQ x).Q = x := by cases n <;> rfl
@[simp] theorem N_setQ (x : Interval) : (n.setQ x).N = n.N := by cases n <;> rfl
@[simp] theorem residual_Q_to_V_setQ (x : Interval) : (n.setQ x).residual_Q_to_V = n.residual_Q_to_V := by cases n <;> rfl
@[simp] theorem children_setQ (x : Interval) : (n.setQ x).children = n.children := by cases n <;> rfl
@[simp] theorem P_setQ (x : Interval) : (n.setQ x).P = n.P := by cases n <;> rfl
@[simp] theorem V_setQ (x : Interval) : (n.setQ x).V = n.V := by cases n <;> rfl
@[simp] theorem Vc_setQ (x : Interval) : (n.setQ x).Vc = n.Vc := by cases n <;> rfl
@[simp] theorem H_setQ (x : Interval) : (n.setQ x).H = n.H := by cases n <;> rfl
@[simp] theorem H_mask_setQ (x : Interval) : (n.setQ x).H_mask = n.H_mask := by cases n <;> rfl
@[simp] theorem spawned_tree_setQ (x : Interval) : (n.setQ x).spawned_tree = n.spawned_tree := by cases n <;> rfl
@[simp] theorem expanded_setQ (x : Interval) : (n.setQ x).expanded = n.expanded := by cases n <;> rfl
@[simp] theorem isAct_setQ (x : Interval) : (n.setQ x).isAct = n.isAct := by cases n <;> rfl

@[simp] theorem info_set_setResidual (x : Interval) : (n.setResidual x).info_set = n.info_set := by cases n <;> rfl
@[simp] theorem tree_owner_setResidual (x : Interval) : (n.setResidual x).tree_owner = n.tree_owner := by cases n <;> rfl
@[simp] theorem Q_setResidual (x : Interval) : (n.setResidual x).Q = n.Q := by cases n <;> rfl
@[simp] theorem N_setResidual (x : Interval) : (n.setResidual x).N = n.N := by cases n <;> rfl
@[simp] theorem residual_Q_to_V_setResidual (x : Interval) : (n.setResidual x).residual_Q_to_V = x := by cases n <;> rfl
@[simp] theorem children_setResidual (x : Interval) : (n.setResidual x).children = n.children := by cases n <;> rfl
@[simp] theorem P_setResidual (x : Interval) : (n.setResidual x).P = n.P := by cases n <;> rfl
@[simp] theorem V_setResidual (x : Interval) : (n.setResidual x).V = n.V := by cases n <;> rfl
@[simp] theorem Vc_setResidual (x : Interval) : (n.setResidual x).Vc = n.Vc := by cases n <;> rfl
@[simp] theorem H_setResidual (x : Interval) : (n.setResidual x).H = n.H := by cases n <;> rfl
@[simp] theorem H_mask_setResidual (x : Interval) : (n.setResidual x).H_mask = n.H_mask := by cases n <;> rfl
@[simp] theorem spawned_tree_setResidual (x : Interval) : (n.setResidual x).spawned_tree = n.spawned_tree := by cases n <;> rfl
@[simp] theorem expanded_setResidual (x : Interval) : (n.setResidual x).expanded = n.expanded := by cases n <;> rfl
@[simp] theorem isAct_setResidual (x : Interval) : (n.setResidual x).isAct = n.isAct := by cases n <;> rfl

@[simp] theorem info_set_setChildren (x : List (Nat × Node ι)) : (n.setChildren x).info_set = n.info_set := by cases n <;> rfl
@[simp] theorem tree_owner_setChildren (x : List (Nat × Node ι)) : (n.setChildren x).tree_owner = n.tree_owner := by cases n <;> rfl
@[simp] theorem Q_setChildren (x : List (Nat × Node ι)) : (n.setChildren x).Q = n.Q := by cases n <;> rfl
@[simp] theorem N_setChildren (x : List (Nat × Node ι)) : (n.setChildren x).N = n.N := by cases n <;> rfl
@[simp] theorem residual_Q_to_V_setChildren (x : List (Nat × Node ι)) : (n.setChildren x).residual_Q_to_V = n.residual_Q_to_V := by cases n <;> rfl
@[simp] theorem children_setChildren (x : List (Nat × Node ι)) : (n.setChildren x).children = x := by cases n <;> rfl
@[simp] theorem P_setChildren (x : List (Nat × Node ι)) : (n.setChildren x).P = n.P := by cases n <;> rfl
@[simp] theorem V_setChildren (x : List (Nat × Node ι)) : (n.setChildren x).V = n.V := by cases n <;> rfl
@[simp] theorem Vc_setChildren (x : List (Nat × Node ι)) : (n.setChildren x).Vc = n.Vc := by cases n <;> rfl
@[simp] theorem H_setChildren (x : List (Nat × Node ι)) : (n.setChildren x).H = n.H := by cases n <;> rfl
@[simp] theorem H_mask_setChildren (x : List (Nat × Node ι)) : (n.setChildren x).H_mask = n.H_mask := by cases n <;> rfl
@[simp] theorem spawned_tree_setChildren (x : List (Nat × Node ι)) : (n.setChildren x).spawned_tree = n.spawned_tree := by cases n <;> rfl
@[simp] theorem expanded_setChildren (x : List (Nat × Node ι)) : (n.setChildren x).expanded = n.expanded := by cases n <;> rfl
@[simp] theorem isAct_setChildren (x : List (Nat × Node ι)) : (n.setChildren x).isAct = n.isAct := by cases n <;> rfl

@[simp] theorem info_set_setSpawned (x : Option (Node ι)) : (n.setSpawned x).info_set = n.info_set := by cases n <;> rfl
@[simp] theorem tree_owner_setSpawned (x : Option (Node ι)) : (n.setSpawned x).tree_owner = n.tree_owner := by cases n <;> rfl
@[simp] theorem Q_setSpawned (x : Option (Node ι)) : (n.setSpawned x).Q = n.Q := by cases n <;> rfl
@[simp] theorem N_setSpawned (x : Option (Node ι)) : (n.setSpawned x).N = n.N := by cases n <;> rfl
@[simp] theorem residual_Q_to_V_setSpawned (x : Option (Node ι)) : (n.setSpawned x).residual_Q_to_V = n.residual_Q_to_V := by cases n <;> rfl
@[simp] theorem children_setSpawned (x : Option (Node ι)) : (n.setSpawned x).children = n.children := by cases n <;> rfl
@[simp] theorem P_setSpawned (x : Option (Node ι)) : (n.setSpawned x).P = n.P := by cases n <;> rfl
@[simp] theorem V_setSpawned (x : Option (Node ι)) : (n.setSpawned x).V = n.V := by cases n <;> rfl
@[simp] theorem Vc_setSpawned (x : Option (Node ι)) : (n.setSpawned x).Vc = n.Vc := by cases n <;> rfl
@[simp] theorem H_setSpawned (x : Option (Node ι)) : (n.setSpawned x).H = n.H := by cases n <;> rfl
@[simp] theorem H_mask_setSpawned (x : Option (Node ι)) : (n.setSpawned x).H_mask = n.H_mask := by cases n <;> rfl
@[simp] theorem spawned_tree_setSpawned (x : Option (Node ι)) (h : n.isAct = true) :
    (n.setSpawned x).spawned_tree = x := by cases n <;> simp_all [Node.isAct, Node.setSpawned, Node.spawned_tree]
@[simp] theorem expanded_setSpawned (x : Option (Node ι)) : (n.setSpawned x).expanded = n.expanded := by cases n <;> rfl
@[simp] theorem isAct_setSpawned (x : Option (Node ι)) : (n.setSpawned x).isAct = n.isAct := by cases n <;> rfl

@[simp] theorem info_set_setExpanded (x : Bool) : (n.setExpanded x).info_set = n.info_set := by cases n <;> rfl
@[simp] theorem tree_owner_setExpanded (x : Bool) : (n.setExpanded x).tree_owner = n.tree_owner := by cases n <;> rfl
@[simp] theorem Q_setExpanded (x : Bool) : (n.setExpanded x).Q = n.Q := by cases n <;> rfl
@[simp] theorem N_setExpanded (x : Bool) : (n.setExpanded x).N = n.N := by cases n <;> rfl
@[simp] theorem residual_Q_to_V_setExpanded (x : Bool) : (n.setExpanded x).residual_Q_to_V = n.residual_Q_to_V := by cases n <;> rfl
@[simp] theorem children_setExpanded (x : Bool) : (n.setExpanded x).children = n.children := by cases n <;> rfl
@[simp] theorem P_setExpanded (x : Bool) : (n.setExpanded x).P = n.P := by cases n <;> rfl
@[simp] theorem V_setExpanded (x : Bool) : (n.setExpanded x).V = n.V := by cases n <;> rfl
@[simp] theorem Vc_setExpanded (x : Bool) : (n.setExpanded x).Vc = n.Vc := by cases n <;> rfl
@[simp] theorem H_setExpanded (x : Bool) : (n.setExpanded x).H = n.H := by cases n <;> rfl
@[simp] theorem H_mask_setExpanded (x : Bool) : (n.setExpanded x).H_mask = n.H_mask := by cases n <;> rfl
@[simp] theorem spawned_tree_setExpanded (x : Bool) : (n.setExpanded x).spawned_tree = n.spawned_tree := by cases n <;> rfl
@[simp] theorem expanded_setExpanded (x : Bool) : (n.setExpanded x).expanded = x := by cases n <;> rfl
@[simp] theorem isAct_setExpanded (x : Bool) : (n.setExpanded x).isAct = n.isAct := by cases n <;> rfl

@[simp] theorem info_set_setOwner (x : Option Nat) : (n.setOwner x).info_set = n.info_set := by cases n <;> rfl
@[simp] theorem tree_owner_setOwner (x : Option Nat) : (n.setOwner x).tree_owner = x := by cases n <;> rfl
@[simp] theorem Q_setOwner (x : Option Nat) : (n.setOwner x).Q = n.Q := by cases n <;> rfl
@[simp] theorem N_setOwner (x : Option Nat) : (n.setOwner x).N = n.N := by cases n <;> rfl
@[simp] theorem residual_Q_to_V_setOwner (x : Option Nat) : (n.setOwner x).residual_Q_to_V = n.residual_Q_to_V := by cases n <;> rfl
@[simp] theorem children_setOwner (x : Option Nat) : (n.setOwner x).children = n.children := by cases n <;> rfl
@[simp] theorem P_setOwner (x : Option Nat) : (n.setOwner x).P = n.P := by cases n <;> rfl
@[simp] theorem V_setOwner (x : Option Nat) : (n.setOwner x).V = n.V := by cases n <;> rfl
@[simp] theorem Vc_setOwner (x : Option Nat) : (n.setOwner x).Vc = n.Vc := by cases n <;> rfl
@[simp] theorem H_setOwner (x : Option Nat) : (n.setOwner x).H = n.H := by cases n <;> rfl
@[simp] theorem H_mask_setOwner (x : Option Nat) : (n.setOwner x).H_mask = n.H_mask := by cases n <;> rfl
@[simp] theorem spawned_tree_setOwner (x : Option Nat) : (n.setOwner x).spawned_tree = n.spawned_tree := by cases n <;> rfl
@[simp] theorem expanded_setOwner (x : Option Nat) : (n.setOwner x).expanded = n.expanded := by cases n <;> rfl
@[simp] theorem isAct_setOwner (x : Option Nat) : (n.setOwner x).isAct = n.isAct := by cases n <;> rfl

end SetterLemmas


variable {ι : Type}

/-- `ActionNode.__init__`.  `Node.__init__` sets `Q = to_interval(initQ)`,
`N = 0`, empty children, `residual_Q_to_V = 0`; if the info set is terminal,
`self.V = self.game_outcome[self.tree_owner]` is evaluated immediately and
`Q` is overwritten with it.  The outcome is a player → value mapping
(spec §3), so the lookup fails (`none`) when `tree_owner` is `None` or not a
valid player index. -/
def mkActionNode (env : Env ι) (i : ι) (owner : Option Nat) (initQ : ℚ) :
    Option (Node ι) :=
  match env.get_game_outcome i with
  | none => some (.act i owner (to_interval initQ) 0 ⟨0, 0⟩ [] none none none none false)
  | some outcome => do
      let o ← owner
      let v ← outcome.get? o
      some (.act i owner (to_interval v) 0 ⟨0, 0⟩ [] none (some v) none none false)

/-- `SamplingNode.__init__`: stores the legality mask and asserts that it has
at least one legal entry (`assert np.any(self.H_mask)`). -/
def mkSamplingNode (env : Env ι) (i : ι) (owner : Option Nat) (initQ : ℚ) :
    Option (Node ι) :=
  let mask := env.get_H_mask i
  if mask.any id then
    some (.samp i owner (to_interval initQ) 0 ⟨0, 0⟩ [] none none none mask false)
  else none

/-- `SamplingNode.apply_H_mask`: multiply `H` elementwise by the legality
mask; if the remaining mass is below `1e-6`, fall back to the uniform
distribution over the mask, else renormalize to sum 1. -/
def apply_H_mask (h : List ℚ) (mask : List Bool) : List ℚ :=
  let hm := List.zipWith (fun x b => if b then x else 0) h mask
  let s := hm.sum
  if s < 1/1000000 then
    let mq : List ℚ := mask.map (fun b => if b then 1 else 0)
    mq.map (fun x => x / mq.sum)
  else
    hm.map (fun x => x / s)

/-- `eval_model` for both node kinds: a no-op if already evaluated (or, for an
`ActionNode`, terminal); otherwise fetch `(P, V, Vc)` (resp. `(H, V, Vc)`,
mask-corrected) from the model and reset `Q` to the degenerate interval of
`V`. -/
def eval_model (env : Env ι) : Node ι → Node ι
  | .act i o q n r c p v vc s e =>
    if p.isSome || (env.get_game_outcome i).isSome then .act i o q n r c p v vc s e
    else
      let t := env.action_eval o i
      .act i o (to_interval t.2.1) n r c (some t.1) (some t.2.1) (some t.2.2) s e
  | .samp i o q n r c h v vc m e =>
    if h.isSome then .samp i o q n r c h v vc m e
    else
      let t := env.hidden_eval o i
      .samp i o (to_interval t.2.1) n r c (some (apply_H_mask t.1 m)) (some t.2.1)
        (some t.2.2) m e

section EvalModelLemmas

variable {ι : Type} (env : Env ι) (n : Node ι)

@[simp] theorem info_set_eval_model : (eval_model env n).info_set = n.info_set := by
  cases n <;> simp only [eval_model] <;> split <;> rfl

@[simp] theorem tree_owner_eval_model : (eval_model env n).tree_owner = n.tree_owner := by
  cases n <;> simp only [eval_model] <;> split <;> rfl

@[simp] theorem N_eval_model : (eval_model env n).N = n.N := by
  cases n <;> simp only [eval_model] <;> split <;> rfl

@[simp] theorem children_eval_model : (eval_model env n).children = n.children := by
  cases n <;> simp only [eval_model] <;> split <;> rfl

@[simp] theorem residual_eval_model : (eval_model env n).residual_Q_to_V = n.residual_Q_to_V := by
  cases n <;> simp only [eval_model] <;> split <;> rfl

@[simp] theorem expanded_eval_model : (eval_model env n).expanded = n.expanded := by
  cases n <;> simp only [eval_model] <;> split <;> rfl

@[simp] theorem spawned_tree_eval_model : (eval_model env n).spawned_tree = n.spawned_tree := by
  cases n <;> simp only [eval_model] <;> split <;> rfl

@[simp] theorem H_mask_eval_model : (eval_model env n).H_mask = n.H_mask := by
  cases n <;> simp only [eval_model] <;> split <;> rfl

@[simp] theorem isAct_eval_model : (eval_model env n).isAct = n.isAct := by
  cases n <;> simp only [eval_model] <;> split <;> rfl

end EvalModelLemmas

/-- Insert into a list sorted (ascending) on a rational key. -/
def insertOn {α : Type} (key : α → ℚ) (x : α) : List α → List α
  | [] => [x]
  | y :: ys => if key x ≤ key y then x :: y :: ys else y :: insertOn key x ys

/-- Insertion sort (ascending) on a rational key. -/
def sortOn {α : Type} (key : α → ℚ) : List α → List α
  | [] => []
  | x :: xs => insertOn key x (sortOn key xs)

/-- Greedily distribute the remaining probability mass over `(value, low cap,
high cap)` slots, in list order: each slot starts at its low cap and receives
as much of the remaining budget as its caps allow.  Returns the resulting
weighted sum of values. -/
def greedyMass : ℚ → List (ℚ × ℚ × ℚ) → ℚ
  | _, [] => 0
  | budget, t :: rest =>
      let add := min budget (t.2.2 - t.2.1)
      (t.2.1 + add) * t.1 + greedyMass (budget - add) rest

/-- Modelled from the spec: `utils.perturb_prob_simplex` lives in `utils.py`,
which is not under `src/`.  Per §4.4, the result bounds `Σ w_c · V_c` over
every weight vector `w` in the probability simplex with `|w_c − p_c| ≤ eps`
and `w_c ∈ [0, 1]`: the lower bound shifts as much allowed mass as possible
toward the lowest-valued children (greedily filling caps in ascending value
order), the upper bound toward the highest-valued. -/
def perturb_prob_simplex_spec (ivs : List Interval) (probs : List ℚ) (eps : ℚ) : Interval :=
  let caps := fun (v : ℚ) (p : ℚ) => (v, max 0 (p - eps), min 1 (p + eps))
  let lows := List.zipWith (fun (iv : Interval) p => caps iv.lo p) ivs probs
  let highs := List.zipWith (fun (iv : Interval) p => caps iv.hi p) ivs probs
  let budget := 1 - (lows.map (fun t => t.2.1)).sum
  ⟨greedyMass budget (sortOn (fun t => t.1) lows),
   greedyMass budget ((sortOn (fun t => t.1) highs).reverse)⟩

/-- First entry of the `children` association list with the given key
(a Python dict lookup; `none` is a `KeyError`). -/
def lookupFirst {β : Type} (a : Nat) : List (Nat × β) → Option β
  | [] => none
  | p :: rest => if p.1 = a then some p.2 else lookupFirst a rest

/-- Replace the first entry with the given key (a Python dict store on an
existing key). -/
def updateFirst {β : Type} (a : Nat) (c : β) : List (Nat × β) → List (Nat × β)
  | [] => []
  | p :: rest => if p.1 = a then (a, c) :: rest else p :: updateFirst a c rest

/-- Maximum of a list of rationals (`np.max`/`argmax` value; `none` on an
empty array, where numpy raises). -/
def listMax? : List ℚ → Option ℚ
  | [] => none
  | x :: xs => some (xs.foldl max x)

/-- One draw of `np.random.choice(len(p), p=p)`: consume one value from the
random stream and pick an index with positive probability (numpy never
returns an index whose probability is zero).  `none` when the support is
empty or the modelled stream is exhausted. -/
def weightedChoice (p : List ℚ) (rng : List Nat) : Option (Nat × List Nat) :=
  let support := (List.range p.length).filter (fun i => 0 < p.getD i 0)
  match support, rng with
  | [], _ => none
  | _, [] => none
  | s, r :: rest => (s.get? (r % s.length)).map (fun i => (i, rest))

/-- `Node.calc_union_interval`: collect the children's scalar values `Vc`
(in edge order), tile them into degenerate intervals, index the weighting
distribution by the children's keys, and perturb within the simplex.  Fails
when a child has no `V` yet or a key is out of the distribution's range. -/
def calc_union_interval (env : Env ι) (node : Node ι) (probs : List ℚ) : Option Interval := do
  let vs ← node.children.mapM (fun pr => pr.2.V)
  let ps ← node.children.mapM (fun pr => probs.get? pr.1)
  some (env.perturb_prob_simplex (vs.map to_interval) ps EPS)

/-- The running-mean update
`residual_Q_to_V = (residual_Q_to_V * (N - 1) + Q - V) / N`, componentwise on
the interval `Q` (numpy broadcasting). -/
def residual_update (r : Interval) (n : Nat) (q : Interval) (v : ℚ) : Interval :=
  ⟨(r.lo * ((n : ℚ) - 1) + q.lo - v) / n, (r.hi * ((n : ℚ) - 1) + q.hi - v) / n⟩

/-- The per-child score intervals of `ActionNode.computePUCT`: the child `Q`
interval plus `c_PUCT * P[a] * sqrt(sum N) / (N_c + 1)` added to both bounds.
Requires `P` evaluated and (as numpy broadcasting does) of the same length as
the children array. -/
def score_intervals (env : Env ι) (node : Node ι) : Option (List Interval) := do
  let p ← node.P
  if p.length = node.children.length then
    let tot : ℚ := (node.children.map (fun pr => (pr.2.N : ℚ))).sum
    some (List.zipWith (fun (pk : ℚ) (pr : Nat × Node ι) =>
      let b := c_PUCT * pk * env.sqrt tot / ((pr.2.N : ℚ) + 1)
      ⟨pr.2.Q.lo + b, pr.2.Q.hi + b⟩) p node.children)
  else none

/-- `ActionNode.computePUCT`: returns the children's `Q` intervals and the
candidate indices, i.e. indices whose score-interval upper bound is at least
`max_lower_bound − 1e-8` where `max_lower_bound` is the largest
score-interval lower bound. -/
def ActionNode.computePUCT (env : Env ι) (node : Node ι) :
    Option (List Interval × List Nat) := do
  let scores ← score_intervals env node
  let bl ← listMax? (scores.map Interval.lo)
  some (node.children.map (fun pr => pr.2.Q),
        (List.range scores.length).filter (fun i => bl - 1/100000000 ≤ (scores.getD i default).hi))

/-- `ActionNode.get_mixing_distribution`: zero the prior outside the
candidate set and renormalize; the `assert s > 0` failure is `none`. -/
def ActionNode.get_mixing_distribution (node : Node ι) (cand : List Nat) : Option (List ℚ) := do
  let p ← node.P
  let masked := p.enum.map (fun pr => if pr.1 ∈ cand then pr.2 else 0)
  let s := masked.sum
  if 0 < s then some (masked.map (fun x => x / s)) else none

/-- The child constructed by `ActionNode.expand` for one action: a
`SamplingNode` iff the acting player changes and the successor still has
hidden information, otherwise an `ActionNode`; either with `initQ = Vc[a]`. -/
def mkChild (env : Env ι) (owner : Option Nat) (cp : Nat) (j : ι) (initQ : ℚ) :
    Option (Node ι) :=
  if decide (cp ≠ env.get_current_player j) && env.has_hidden_info j then
    mkSamplingNode env j owner initQ
  else
    mkActionNode env j owner initQ

/-- The loop body of `ActionNode.expand`: one child per legal action, in
order, keyed by the action, eagerly model-evaluated when `CHEAT`. -/
def expand_children (env : Env ι) (owner : Option Nat) (cp : Nat) (i : ι) (vc : List ℚ) :
    List Nat → Option (List (Nat × Node ι))
  | [] => some []
  | a :: rest => do
      let q ← vc.get? a
      let c ← mkChild env owner cp (env.apply i a) q
      let c := if CHEAT then eval_model env c else c
      let rest' ← expand_children env owner cp i vc rest
      some ((a, c) :: rest')

/-- `ActionNode.expand`: mark expanded; a no-op (beyond the flag) if
terminal; otherwise evaluate the model, create one child per legal action
and reset `Q` to the degenerate interval of `V`. -/
def ActionNode.expand (env : Env ι) (node : Node ι) : Option (Node ι) :=
  let node := node.setExpanded true
  if node.terminal env then some node
  else
    let node := eval_model env node
    do
      let vc ← node.Vc
      let ch ← expand_children env node.tree_owner (env.get_current_player node.info_set)
        node.info_set vc (env.get_actions node.info_set)
      let v ← node.V
      some ((node.setChildren ch).setQ (to_interval v))

/-- `SamplingNode.create_spawned_tree`: clone the instantiated info set with
every other player's private information redacted, build a root `ActionNode`
with the default `tree_owner = None`, then (as `Tree.__init__` does) assign
the root's current player as the tree owner.  The root is built before the
owner is assigned. -/
def SamplingNode.create_spawned_tree (env : Env ι) (j : ι) : Option (Node ι) := do
  let j' := env.redact j
  let root ← mkActionNode env j' none 0
  some (root.setOwner (some (env.get_current_player j')))

/-- The loop body of `SamplingNode.expand`: one child per legal hidden-state
index; a chained `SamplingNode` (asserting the player does not change) if the
instantiation still has hidden information, otherwise an `ActionNode`
carrying a freshly spawned tree. -/
def expand_hidden_children (env : Env ι) (owner : Option Nat) (cp : Nat) (i : ι)
    (vc : List ℚ) : List Nat → Option (List (Nat × Node ι))
  | [] => some []
  | h :: rest => do
      let q ← vc.get? h
      let j := env.instantiate_hidden_state i h
      let c ←
        (if env.has_hidden_info j then
          if env.get_current_player j = cp then mkSamplingNode env j owner q else none
        else do
          let c ← mkActionNode env j owner q
          let st ← SamplingNode.create_spawned_tree env j
          some (c.setSpawned (some st)))
      let c := if CHEAT then eval_model env c else c
      let rest' ← expand_hidden_children env owner cp i vc rest
      some ((h, c) :: rest')

/-- `np.where(mask)[0]`: the indices with a true mask entry, ascending. -/
def mask_indices (mask : List Bool) : List Nat :=
  (List.range mask.length).filter (fun i => mask.getD i false)

/-- `SamplingNode.expand`: evaluate the model, then create one child per
masked-legal hidden state. -/
def SamplingNode.expand (env : Env ι) (node : Node ι) : Option (Node ι) := do
  let node := eval_model env node
  let vc ← node.Vc
  let ch ← expand_hidden_children env node.tree_owner (env.get_current_player node.info_set)
    node.info_set vc (mask_indices node.H_mask)
  some ((node.setChildren ch).setExpanded true)

/-- `ActionNode.unspawned_visit`, with the recursive `visit` passed as `rec`:
compute the PUCT candidates, select the single candidate or sample from the
mixing distribution, visit the chosen child, recompute
`Q = union_interval + child.residual_Q_to_V` and the residual running mean,
and return the selected action. -/
def ActionNode.unspawned_visit (env : Env ι)
    (rec : Node ι → List Nat → Option (Node ι × List Nat × Option Nat))
    (node : Node ι) (rng : List Nat) : Option (Node ι × List Nat × Option Nat) := do
  let pr ← ActionNode.computePUCT env node
  let (idx, rng1) ←
    (match pr.2 with
     | [i] => some (i, rng)
     | cand => do
         let d ← ActionNode.get_mixing_distribution node cand
         weightedChoice d rng)
  let a ← (env.get_actions node.info_set).get? idx
  let child ← lookupFirst a node.children
  let (c', rng2, _) ← rec child rng1
  let node := node.setChildren (updateFirst a c' node.children)
  let p ← node.P
  let u ← calc_union_interval env node p
  let node := node.setQ (u.add c'.residual_Q_to_V)
  let v ← node.V
  some (node.setResidual (residual_update node.residual_Q_to_V node.N node.Q v), rng2, some a)

/-- `ActionNode.spawned_visit`: bootstrap-visit the spawned root if it has
never been visited, visit it again to obtain its selected action (`none` —
the expansion-only, terminal and spawned paths — is a `KeyError` on the
children lookup, hence failure), visit this node's child for that action and
do the same `Q`/residual update as the unspawned path.  Returns no action. -/
def ActionNode.spawned_visit (env : Env ι)
    (rec : Node ι → List Nat → Option (Node ι × List Nat × Option Nat))
    (node st : Node ι) (rng : List Nat) : Option (Node ι × List Nat) := do
  let (st, rng) ←
    (if st.N = 0 then do
        let (s', r', _) ← rec st rng
        some (s', r')
     else some (st, rng))
  let (st, rng, actOpt) ← rec st rng
  let node := node.setSpawned (some st)
  let a ← actOpt
  let child ← lookupFirst a node.children
  let (c', rng2, _) ← rec child rng
  let node := node.setChildren (updateFirst a c' node.children)
  let p ← node.P
  let u ← calc_union_interval env node p
  let node := node.setQ (u.add c'.residual_Q_to_V)
  let v ← node.V
  some (node.setResidual (residual_update node.residual_Q_to_V node.N node.Q v), rng2)

/-- The body of `SamplingNode.visit` after the `N` increment: expand on first
visit, sample a hidden state from `H`, visit that child, and do the same
`Q`/residual update.  Returns no action. -/
def SamplingNode.visit_body (env : Env ι)
    (rec : Node ι → List Nat → Option (Node ι × List Nat × Option Nat))
    (node : Node ι) (rng : List Nat) : Option (Node ι × List Nat × Option Nat) := do
  let node ← (if node.expanded then some node else SamplingNode.expand env node)
  let hList ← node.H
  let (h, rng1) ← weightedChoice hList rng
  let child ← lookupFirst h node.children
  let (c', rng2, _) ← rec child rng1
  let node := node.setChildren (updateFirst h c' node.children)
  let u ← calc_union_interval env node hList
  let node := node.setQ (u.add c'.residual_Q_to_V)
  let v ← node.V
  some (node.setResidual (residual_update node.residual_Q_to_V node.N node.Q v), rng2, none)

/-- `visit(model)`, fuel-bounded (the Python recursion is bounded by game
length).  Increment `N`; an `ActionNode` returns immediately when terminal,
expands (only) on its first visit, and otherwise delegates to the spawned or
unspawned path — only the unspawned path returns the selected action
(`ActionNode.visit` discards `spawned_visit`'s value and falls through to
`None`).  A `SamplingNode` never returns an action. -/
def visit_step (env : Env ι)
    (rec : Node ι → List Nat → Option (Node ι × List Nat × Option Nat))
    (node : Node ι) (rng : List Nat) : Option (Node ι × List Nat × Option Nat) :=
  let node := node.bumpN
  if node.isAct then
    if node.terminal env then some (node, rng, none)
    else if node.expanded = false then do
      let n' ← ActionNode.expand env node
      some (n', rng, none)
    else
      match node.spawned_tree with
      | some st => do
          let (n', r') ← ActionNode.spawned_visit env rec node st rng
          some (n', r', none)
      | none => ActionNode.unspawned_visit env rec node rng
  else SamplingNode.visit_body env rec node rng

def visit (env : Env ι) (fuel : Nat) : Node ι → List Nat → Option (Node ι × List Nat × Option Nat) :=
  @Nat.rec (fun _ => Node ι → List Nat → Option (Node ι × List Nat × Option Nat))
    (fun _ _ => none)
    (fun _ ih => visit_step env ih)
    fuel

theorem visit_zero (env : Env ι) (node : Node ι) (rng : List Nat) :
    visit env 0 node rng = none := rfl

theorem visit_succ (env : Env ι) (fuel : Nat) (node : Node ι) (rng : List Nat) :
    visit env (fuel + 1) node rng = visit_step env (visit env fuel) node rng := rfl

/-- `Tree.__init__`: the tree owner is the root's current player and is
written into the root node. -/
def Tree.make (env : Env ι) (root : Node ι) : Node ι :=
  root.setOwner (some (env.get_current_player root.info_set))

/-- The `while self.root.N <= n` loop of `get_visit_distribution`, with its
own iteration fuel `k`. -/
def Tree.visit_loop (env : Env ι) (fuel n : Nat) :
    Nat → Node ι → List Nat → Option (Node ι × List Nat)
  | 0, _, _ => none
  | k+1, root, rng =>
    if root.N ≤ n then do
      let (r', rng', _) ← visit env fuel root rng
      Tree.visit_loop env fuel n k r' rng'
    else some (root, rng)

/-- `Tree.get_visit_distribution(n)`: visit while `root.N ≤ n`, then return
`{action: child.N / (root.N - 1)}`.  When `root.N - 1 = 0` and the root has
children this is Python's `ZeroDivisionError`, hence `none`. -/
def Tree.get_visit_distribution (env : Env ι) (fuel k : Nat) (root : Node ι) (n : Nat)
    (rng : List Nat) : Option (List (Nat × ℚ) × Node ι × List Nat) := do
  let (r', rng') ← Tree.visit_loop env fuel n k root rng
  let t := r'.N - 1
  if r'.children.length ≠ 0 ∧ t = 0 then none
  else some (r'.children.map (fun pr => (pr.1, (pr.2.N : ℚ) / (t : ℚ))), r', rng')

/-! ### A concrete two-action game used by several witnesses

Info set `0`: player 0 to move, two legal actions; action `a` leads to info
set `a + 1`, both terminal with outcomes `[1, 0]` and `[0, 1]`, so values `1`
and `0` for owner 0.  No hidden information anywhere.  The model returns the
uniform prior `P = [1/2, 1/2]`, `V = 1/2`, `Vc = [1, 0]`.  The perturbation
is the spec-modelled `perturb_prob_simplex_spec`; the square root is only
ever taken of the total child visit counts reached in the runs below (0 and
1), where it is rational. -/

def exampleEnv : Env Nat :=
  { get_current_player := fun i => if i = 0 then 0 else 1
    get_game_outcome := fun i =>
      if i = 1 then some [1, 0] else if i = 2 then some [0, 1] else none
    get_actions := fun _ => [0, 1]
    apply := fun _ a => a + 1
    has_hidden_info := fun _ => false
    get_H_mask := fun _ => []
    instantiate_hidden_state := fun i _ => i
    redact := fun i => i
    action_eval := fun _ _ => ([1/2, 1/2], 1/2, [1, 0])
    hidden_eval := fun _ _ => ([], 0, [])
    perturb_prob_simplex := perturb_prob_simplex_spec
    sqrt := fun q => if q = 1 then 1 else 0 }

/-- A fresh, unevaluated root `ActionNode` for info set 0 of `exampleEnv`,
with the tree owner already assigned (as `Tree.__init__` does). -/
def exampleRoot : Node Nat := .act 0 (some 0) ⟨0, 0⟩ 0 ⟨0, 0⟩ [] none none none none false

/-! ### Helper lemmas about lists of rationals -/

theorem sum_map_div (l : List ℚ) (s : ℚ) : (l.map (fun x => x / s)).sum = l.sum / s := by
  induction l with
  | nil => simp
  | cons x xs ih => simp [ih, add_div]

theorem getD_map_div (l : List ℚ) (s : ℚ) (k : Nat) (hk : k < l.length) :
    (l.map (fun x => x / s)).getD k 0 = l.getD k 0 / s := by
  induction l generalizing k with
  | nil => simp at hk
  | cons x xs ih =>
    cases k with
    | zero => simp
    | succ m => simpa using ih m (by simpa using hk)

theorem getD_boolmap (mask : List Bool) (k : Nat) (hk : k < mask.length) :
    (mask.map (fun b => if b then (1:ℚ) else 0)).getD k 0 =
      if mask.getD k true then 1 else 0 := by
  induction mask generalizing k with
  | nil => simp at hk
  | cons b bs ih =>
    cases k with
    | zero => simp
    | succ m => simpa using ih m (by simpa using hk)

theorem getD_zip_mask (h : List ℚ) (mask : List Bool) (k : Nat)
    (hk : k < mask.length) (hm : mask.getD k true = false) :
    (List.zipWith (fun x b => if b then x else 0) h mask).getD k 0 = 0 := by
  induction h generalizing mask k with
  | nil => simp
  | cons x xs ih =>
    cases mask with
    | nil => simp at hk
    | cons b bs =>
      cases k with
      | zero => simp_all
      | succ m =>
        simpa using ih bs m (by simpa using hk) (by simpa using hm)

theorem boolmap_sum (mask : List Bool) :
    (mask.map (fun b => if b then (1:ℚ) else 0)).sum = (mask.count true : ℚ) := by
  induction mask with
  | nil => simp
  | cons b bs ih =>
    cases b <;> simp [ih, List.count_cons, add_comm]

theorem count_true_pos (mask : List Bool) (hany : mask.any id = true) :
    0 < mask.count true := by
  rw [List.any_eq_true] at hany
  obtain ⟨b, hb, hbt⟩ := hany
  simp only [id] at hbt
  subst hbt
  exact List.count_pos_iff.mpr hb

/-! ### C3: the legality-masking property of `SamplingNode` evaluation -/

/-- C3: after `apply_H_mask`, the distribution assigns exactly 0 to every
masked-out index and sums exactly to 1; when the masked mass is below `1e-6`
the result is the uniform distribution over the legal mask entries
(`1 / count` at legal indices, 0 elsewhere). -/
theorem c3_apply_H_mask (h : List ℚ) (mask : List Bool)
    (hlen : h.length = mask.length) (hany : mask.any id = true) :
    (∀ k, k < mask.length → mask.getD k true = false →
       (apply_H_mask h mask).getD k 0 = 0) ∧
    (apply_H_mask h mask).sum = 1 ∧
    ((List.zipWith (fun x b => if b then x else 0) h mask).sum < 1/1000000 →
      ∀ k, k < mask.length →
        (apply_H_mask h mask).getD k 0 =
          if mask.getD k true then 1 / (mask.count true : ℚ) else 0) := by
  have hcount : (0:ℚ) < (mask.count true : ℚ) := by
    exact_mod_cast count_true_pos mask hany
  have hmsum : (mask.map (fun b => if b then (1:ℚ) else 0)).sum = (mask.count true : ℚ) :=
    boolmap_sum mask
  unfold apply_H_mask
  by_cases hs : (List.zipWith (fun x b => if b then x else 0) h mask).sum < 1/1000000
  · simp only [hs, if_pos]
    refine ⟨?_, ?_, ?_⟩
    · intro k hk hmk
      rw [getD_map_div _ _ k (by simpa using hk), getD_boolmap mask k hk, hmk]
      simp
    · rw [sum_map_div, hmsum, div_self (ne_of_gt hcount)]
    · intro _ k hk
      rw [getD_map_div _ _ k (by simpa using hk), getD_boolmap mask k hk, hmsum]
      split_ifs <;> simp [one_div]
  · simp only [hs, if_neg, if_false]
    have hzlen : (List.zipWith (fun x b => if b then x else 0) h mask).length = mask.length := by
      simp [hlen]
    have hspos : (0:ℚ) < (List.zipWith (fun x b => if b then x else 0) h mask).sum := by
      have := not_lt.mp hs
      linarith
    refine ⟨?_, ?_, ?_⟩
    · intro k hk hmk
      rw [getD_map_div _ _ k (by simpa [hzlen] using hk), getD_zip_mask h mask k hk hmk]
      simp
    · rw [sum_map_div, div_self (ne_of_gt hspos)]
    · intro hcon
      exact hcon.elim

/-- Concrete witness for C3, the scenario of the spec: `Hmask = [1,1,0]` with
all the oracle mass on the masked-out entry falls back to the uniform
distribution `[1/2, 1/2, 0]`. -/
theorem c3_apply_H_mask_witness :
    ((∀ k, k < 3 → [true, true, false].getD k true = false →
        (apply_H_mask [0, 0, 1] [true, true, false]).getD k 0 = 0) ∧
     (apply_H_mask [0, 0, 1] [true, true, false]).sum = 1 ∧
     ((List.zipWith (fun x b => if b then x else 0) ([0, 0, 1] : List ℚ)
         [true, true, false]).sum < 1/1000000 →
       ∀ k, k < 3 →
         (apply_H_mask [0, 0, 1] [true, true, false]).getD k 0 =
           if [true, true, false].getD k true then 1 / (([true, true, false].count true : Nat) : ℚ) else 0)) ∧
    apply_H_mask [0, 0, 1] [true, true, false] = [1/2, 1/2, 0] := by
  refine ⟨c3_apply_H_mask [0, 0, 1] [true, true, false] rfl rfl, ?_⟩
  with_unfolding_all decide

/-! ### C4: the model boundary performs no validation -/

/-- An environment whose model returns malformed output: a negative entry in
`P` (and `H`), so not a probability vector at all. -/
def badModelEnv : Env Nat :=
  { get_current_player := fun _ => 0
    get_game_outcome := fun _ => none
    get_actions := fun _ => [0, 1]
    apply := fun i _ => i
    has_hidden_info := fun _ => false
    get_H_mask := fun _ => [true, true]
    instantiate_hidden_state := fun i _ => i
    redact := fun i => i
    action_eval := fun _ _ => ([-1, 2], 5, [0, 0])
    hidden_eval := fun _ _ => ([-1, 2], 5, [0, 0])
    perturb_prob_simplex := perturb_prob_simplex_spec
    sqrt := fun _ => 0 }

/-- C4: contrary to the spec's §7 requirement, `eval_model` performs no
validation at the model boundary: an action evaluation returning the
malformed prior `P = [-1, 2]` (negative entry) is stored and used unchanged,
and so is a hidden evaluation returning `H = [-1, 2]` (the mask
renormalization divides by the mass 1 and keeps the negative entry); no
error distinguishable as invalid oracle output exists in the code. -/
theorem c4_no_boundary_validation :
    (eval_model badModelEnv (.act 0 none ⟨0,0⟩ 0 ⟨0,0⟩ [] none none none none false)).P
        = some [-1, 2] ∧
    (eval_model badModelEnv (.act 0 none ⟨0,0⟩ 0 ⟨0,0⟩ [] none none none none false)).V
        = some 5 ∧
    (eval_model badModelEnv (.samp 0 none ⟨0,0⟩ 0 ⟨0,0⟩ [] none none none [true, true] false)).H
        = some [-1, 2] := by
  refine ⟨?_, ?_, ?_⟩ <;> with_unfolding_all decide

/-! ### C9: terminal construction requires an already-valid tree owner -/

/-- C9: a terminal `ActionNode` evaluates `game_outcome[tree_owner]` at
construction; with the default `tree_owner = None` — exactly what
`create_spawned_tree` passes for every spawned root, before `Tree.__init__`
later assigns the owner — construction fails rather than deferring the
lookup, while a valid player key makes it succeed with `V` and `Q` taken
from the outcome. -/
theorem c9_terminal_needs_owner {ι : Type} (env : Env ι) (q : ℚ) :
    (∀ i out, env.get_game_outcome i = some out → mkActionNode env i none q = none) ∧
    (∀ j out, env.get_game_outcome (env.redact j) = some out →
       SamplingNode.create_spawned_tree env j = none) ∧
    (∀ i out o v, env.get_game_outcome i = some out → out.get? o = some v →
       mkActionNode env i (some o) q =
         some (.act i (some o) (to_interval v) 0 ⟨0, 0⟩ [] none (some v) none none false)) := by
  refine ⟨?_, ?_, ?_⟩
  · intro i out hter
    unfold mkActionNode
    rw [hter]
    rfl
  · intro j out hter
    unfold SamplingNode.create_spawned_tree mkActionNode
    simp [hter]
  · intro i out o v hter hv
    unfold mkActionNode
    rw [hter]
    simp only [List.get?_eq_getElem?] at hv
    simp [hv]

/-- Concrete witness for C9 in the two-action game environment: info set 1 is
terminal with outcome `[1, 0]`; building its node with owner `None` fails,
with owner 0 it succeeds with `V = 1`. -/
theorem c9_terminal_needs_owner_witness :
    mkActionNode exampleEnv 1 none 0 = none ∧
    SamplingNode.create_spawned_tree exampleEnv 1 = none ∧
    mkActionNode exampleEnv 1 (some 0) 0 =
      some (.act 1 (some 0) (to_interval 1) 0 ⟨0, 0⟩ [] none (some 1) none none false) := by
  refine ⟨(c9_terminal_needs_owner exampleEnv 0).1 1 [1, 0] rfl,
          (c9_terminal_needs_owner exampleEnv 0).2.1 1 [1, 0] rfl,
          (c9_terminal_needs_owner exampleEnv 0).2.2 1 [1, 0] 0 1 rfl rfl⟩

/-! ### C6: child kind and bootstrap value in `ActionNode.expand` -/

/-- C6: in `ActionNode.expand`, the child constructed for a legal action is a
`SamplingNode` precisely when the acting player changes and the successor
still carries hidden information, and is otherwise an `ActionNode`; in
either case the constructor receives `initQ = Vc[a]`, visible as
`Q = to_interval (Vc[a])` on every freshly constructed child (for an
`ActionNode` child, unless the successor is terminal, where the constructor
overwrites `Q` with the game outcome).  The expansion loop builds exactly
these children, one per legal action in order, each then eagerly
model-evaluated (`CHEAT`). -/
theorem c6_expand_child_kinds {ι : Type} :
    (∀ (env : Env ι) (ow : Option Nat) (cp : Nat) (j : ι) (q : ℚ) (c : Node ι),
       mkChild env ow cp j q = some c →
       (c.isAct = false ↔ (cp ≠ env.get_current_player j ∧ env.has_hidden_info j = true)) ∧
       c.N = 0 ∧ c.residual_Q_to_V = ⟨0, 0⟩ ∧
       (c.isAct = false → c.Q = to_interval q) ∧
       (c.isAct = true → env.get_game_outcome j = none → c.Q = to_interval q)) ∧
    (∀ (env : Env ι) (ow : Option Nat) (cp : Nat) (i : ι) (vc : List ℚ)
       (acts : List Nat) (ch : List (Nat × Node ι)),
       expand_children env ow cp i vc acts = some ch →
       List.Forall₂ (fun a (pr : Nat × Node ι) => pr.1 = a ∧ ∃ q c₀,
         vc.get? a = some q ∧ mkChild env ow cp (env.apply i a) q = some c₀ ∧
         pr.2 = eval_model env c₀) acts ch) ∧
    (∀ (env : Env ι) (node n' : Node ι),
       node.terminal env = false → ActionNode.expand env node = some n' →
       ∃ vc ch, (eval_model env (node.setExpanded true)).Vc = some vc ∧
         expand_children env node.tree_owner (env.get_current_player node.info_set)
           node.info_set vc (env.get_actions node.info_set) = some ch ∧
         n'.children = ch) := by
  refine ⟨?_, ?_, ?_⟩
  · intro env ow cp j q c hc
    by_cases hcond : (decide (cp ≠ env.get_current_player j) && env.has_hidden_info j) = true
    · simp only [mkChild, hcond, if_true, mkSamplingNode] at hc
      simp only [Bool.and_eq_true, decide_eq_true_eq] at hcond
      split at hc
      · injection hc with h
        subst h
        simp [Node.isAct, Node.N, Node.residual_Q_to_V, Node.Q, hcond]
      · exact Option.noConfusion hc
    · simp only [mkChild, hcond, if_false, Bool.false_eq_true, mkActionNode] at hc
      simp only [Bool.and_eq_true, decide_eq_true_eq, not_and] at hcond
      split at hc
      · injection hc with h
        subst h
        refine ⟨?_, rfl, rfl, ?_, ?_⟩
        · simp only [Node.isAct]
          constructor
          · intro h; exact absurd h (by simp)
          · intro ⟨h1, h2⟩; exact absurd h2 (by simpa using hcond h1)
        · intro h; exact absurd h (by simp [Node.isAct])
        · intro _ _; rfl
      · rename_i out hout
        simp only [bind, Option.bind_eq_some, Option.some.injEq] at hc
        obtain ⟨o, ho, v, hv, hc⟩ := hc
        subst hc
        refine ⟨?_, rfl, rfl, ?_, ?_⟩
        · simp only [Node.isAct]
          constructor
          · intro h; exact absurd h (by simp)
          · intro ⟨h1, h2⟩; exact absurd h2 (by simpa using hcond h1)
        · intro h; exact absurd h (by simp [Node.isAct])
        · intro _ hnone
          rw [hout] at hnone
          exact Option.noConfusion hnone
  · intro env ow cp i vc acts
    induction acts with
    | nil =>
      intro ch hch
      simp only [expand_children] at hch
      injection hch with h
      subst h
      exact List.Forall₂.nil
    | cons a rest ih =>
      intro ch hch
      simp only [expand_children, bind, Option.bind_eq_some, Option.some.injEq] at hch
      obtain ⟨q, hq, c₀, hc₀, rest', hrest, hcons⟩ := hch
      subst hcons
      exact List.Forall₂.cons ⟨rfl, q, c₀, by simpa using hq, hc₀, by simp [CHEAT]⟩
        (ih rest' hrest)
  · intro env node n' hterm hexp
    simp only [ActionNode.expand] at hexp
    rw [show (node.setExpanded true).terminal env = false by
      simpa [Node.terminal] using hterm] at hexp
    simp only [Bool.false_eq_true, if_false, bind, Option.bind_eq_some,
      Option.some.injEq] at hexp
    obtain ⟨vc, hvc, ch, hch, v, hv, heq⟩ := hexp
    refine ⟨vc, ch, hvc, by simpa using hch, ?_⟩
    subst heq
    simp

/-- A game with hidden information: from info set 0 (player 0), action 0
leads to info set 1 where the player changes and hidden information remains
(a `SamplingNode` child), action 1 leads to info set 2 with the same player
to move (an `ActionNode` child). -/
def hiddenEnv : Env Nat :=
  { get_current_player := fun i => if i = 1 then 1 else 0
    get_game_outcome := fun _ => none
    get_actions := fun _ => [0, 1]
    apply := fun _ a => a + 1
    has_hidden_info := fun i => i = 1
    get_H_mask := fun _ => [true]
    instantiate_hidden_state := fun i _ => i
    redact := fun i => i
    action_eval := fun _ _ => ([1/2, 1/2], 1/2, [3/4, 1/4])
    hidden_eval := fun _ _ => ([1], 0, [0])
    perturb_prob_simplex := perturb_prob_simplex_spec
    sqrt := fun _ => 0 }

/-- Concrete witness for C6: at info set 1 of `hiddenEnv` the player changes
and hidden information remains, so the child is a `SamplingNode` with
`Q = to_interval (Vc[0]) = (3/4, 3/4)`; at info set 2 the player does not
change, so the child is an `ActionNode` with `Q = to_interval (Vc[1])`. -/
theorem c6_expand_child_kinds_witness :
    (((Node.samp 1 (some 0) ⟨3/4, 3/4⟩ 0 ⟨0, 0⟩ [] none none none [true] false : Node Nat).isAct
          = false ↔
        ((0:Nat) ≠ hiddenEnv.get_current_player 1 ∧ hiddenEnv.has_hidden_info 1 = true)) ∧
      (Node.samp 1 (some 0) ⟨3/4, 3/4⟩ 0 ⟨0, 0⟩ [] none none none [true] false : Node Nat).N = 0 ∧
      (Node.samp 1 (some 0) ⟨3/4, 3/4⟩ 0 ⟨0, 0⟩ [] none none none [true] false : Node Nat).residual_Q_to_V = ⟨0, 0⟩ ∧
      ((Node.samp 1 (some 0) ⟨3/4, 3/4⟩ 0 ⟨0, 0⟩ [] none none none [true] false : Node Nat).isAct = false →
        (Node.samp 1 (some 0) ⟨3/4, 3/4⟩ 0 ⟨0, 0⟩ [] none none none [true] false : Node Nat).Q = to_interval (3/4)) ∧
      ((Node.samp 1 (some 0) ⟨3/4, 3/4⟩ 0 ⟨0, 0⟩ [] none none none [true] false : Node Nat).isAct = true →
        hiddenEnv.get_game_outcome 1 = none →
        (Node.samp 1 (some 0) ⟨3/4, 3/4⟩ 0 ⟨0, 0⟩ [] none none none [true] false : Node Nat).Q = to_interval (3/4))) ∧
    (((Node.act 2 (some 0) ⟨1/4, 1/4⟩ 0 ⟨0, 0⟩ [] none none none none false : Node Nat).isAct
          = false ↔
        ((0:Nat) ≠ hiddenEnv.get_current_player 2 ∧ hiddenEnv.has_hidden_info 2 = true)) ∧
      (Node.act 2 (some 0) ⟨1/4, 1/4⟩ 0 ⟨0, 0⟩ [] none none none none false : Node Nat).N = 0 ∧
      (Node.act 2 (some 0) ⟨1/4, 1/4⟩ 0 ⟨0, 0⟩ [] none none none none false : Node Nat).residual_Q_to_V = ⟨0, 0⟩ ∧
      ((Node.act 2 (some 0) ⟨1/4, 1/4⟩ 0 ⟨0, 0⟩ [] none none none none false : Node Nat).isAct = false →
        (Node.act 2 (some 0) ⟨1/4, 1/4⟩ 0 ⟨0, 0⟩ [] none none none none false : Node Nat).Q = to_interval (1/4)) ∧
      ((Node.act 2 (some 0) ⟨1/4, 1/4⟩ 0 ⟨0, 0⟩ [] none none none none false : Node Nat).isAct = true →
        hiddenEnv.get_game_outcome 2 = none →
        (Node.act 2 (some 0) ⟨1/4, 1/4⟩ 0 ⟨0, 0⟩ [] none none none none false : Node Nat).Q = to_interval (1/4))) :=
  ⟨c6_expand_child_kinds.1 hiddenEnv (some 0) 0 1 (3/4) _ (by with_unfolding_all rfl),
   c6_expand_child_kinds.1 hiddenEnv (some 0) 0 2 (1/4) _ (by with_unfolding_all rfl)⟩

/-! ### C5: the very first visit of a non-terminal `ActionNode` only expands -/

theorem mkChild_fresh {ι : Type} (env : Env ι) (ow : Option Nat) (cp : Nat) (j : ι)
    (q : ℚ) (c : Node ι) (hc : mkChild env ow cp j q = some c) :
    c.N = 0 ∧ c.children = [] := by
  unfold mkChild at hc
  split at hc
  · unfold mkSamplingNode at hc
    simp only at hc
    split at hc
    · injection hc with h; subst h; exact ⟨rfl, rfl⟩
    · exact Option.noConfusion hc
  · unfold mkActionNode at hc
    split at hc
    · injection hc with h; subst h; exact ⟨rfl, rfl⟩
    · simp only [bind, Option.bind_eq_some, Option.some.injEq] at hc
      obtain ⟨o, ho, v, hv, hc⟩ := hc
      subst hc
      exact ⟨rfl, rfl⟩

theorem expand_children_spec {ι : Type} (env : Env ι) (ow : Option Nat) (cp : Nat)
    (i : ι) (vc : List ℚ) :
    ∀ (acts : List Nat) (ch : List (Nat × Node ι)),
      expand_children env ow cp i vc acts = some ch →
      ch.map Prod.fst = acts ∧ ∀ p ∈ ch, p.2.N = 0 := by
  intro acts
  induction acts with
  | nil =>
    intro ch hch
    simp only [expand_children, Option.some.injEq] at hch
    subst hch
    simp
  | cons a rest ih =>
    intro ch hch
    simp only [expand_children, bind, Option.bind_eq_some, Option.some.injEq] at hch
    obtain ⟨q, hq, c₀, hc₀, rest', hrest, hcons⟩ := hch
    subst hcons
    obtain ⟨hkeys, hN⟩ := ih rest' hrest
    refine ⟨by simp [hkeys], ?_⟩
    intro p hp
    rcases List.mem_cons.mp hp with hp | hp
    · subst hp
      simp [CHEAT, (mkChild_fresh env ow cp (env.apply i a) q c₀ hc₀).1]
    · exact hN p hp

/-- `ActionNode.expand` on a non-terminal node: `N`, the info set, the owner,
the spawned tree and the node kind are unchanged, the node is marked
expanded, and the children are exactly one fresh (`N = 0`) child per legal
action, keyed by the action, in order. -/
theorem ActionNode.expand_spec {ι : Type} (env : Env ι) (node n' : Node ι)
    (hterm : node.terminal env = false) (hexp : ActionNode.expand env node = some n') :
    n'.N = node.N ∧ n'.info_set = node.info_set ∧ n'.tree_owner = node.tree_owner ∧
    n'.spawned_tree = node.spawned_tree ∧ n'.isAct = node.isAct ∧
    n'.expanded = true ∧
    n'.children.map Prod.fst = env.get_actions node.info_set ∧
    ∀ p ∈ n'.children, p.2.N = 0 := by
  simp only [ActionNode.expand] at hexp
  rw [show (node.setExpanded true).terminal env = false by
    simpa [Node.terminal] using hterm] at hexp
  simp only [Bool.false_eq_true, if_false, bind, Option.bind_eq_some,
    Option.some.injEq] at hexp
  obtain ⟨vc, hvc, ch, hch, v, hv, heq⟩ := hexp
  subst heq
  have hspec := expand_children_spec env (eval_model env (node.setExpanded true)).tree_owner
    (env.get_current_player (eval_model env (node.setExpanded true)).info_set)
    (eval_model env (node.setExpanded true)).info_set vc
    (env.get_actions (eval_model env (node.setExpanded true)).info_set) ch hch
  simp only [info_set_eval_model, info_set_setExpanded] at hspec
  refine ⟨by simp, by simp, by simp, by simp, by simp, by simp, ?_, ?_⟩
  · simpa using hspec.1
  · simpa using hspec.2

/-- C5: the very first `visit` of a non-terminal, not-yet-expanded
`ActionNode` performs expansion only: it increments `N` by one, creates
exactly one child per legal action (each with zero visits), consumes no
randomness and selects no action — there is no recursion into any child. -/
theorem c5_first_visit_expands_only {ι : Type} (env : Env ι) (fuel : Nat)
    (node : Node ι) (rng : List Nat) (res : Node ι × List Nat × Option Nat)
    (hact : node.isAct = true) (hterm : node.terminal env = false)
    (hexp : node.expanded = false) (h : visit env fuel node rng = some res) :
    res.2.1 = rng ∧ res.2.2 = none ∧ res.1.N = node.N + 1 ∧
    res.1.expanded = true ∧
    res.1.children.map Prod.fst = env.get_actions node.info_set ∧
    ∀ p ∈ res.1.children, p.2.N = 0 := by
  cases fuel with
  | zero => exact Option.noConfusion h
  | succ fuel =>
    rw [visit_succ] at h
    simp only [visit_step, isAct_bumpN, hact, if_true,
      show node.bumpN.terminal env = false by simpa [Node.terminal] using hterm,
      Bool.false_eq_true, if_false, expanded_bumpN, hexp, if_true, bind,
      Option.bind_eq_some, Option.some.injEq] at h
    obtain ⟨n', hn', heq⟩ := h
    subst heq
    obtain ⟨h1, h2, h3, h4, h5, h6, h7, h8⟩ := ActionNode.expand_spec env node.bumpN n'
      (by simpa [Node.terminal] using hterm) hn'
    refine ⟨rfl, rfl, by simp [h1], h6, by simpa using h7, h8⟩

/-- The root of `exampleEnv` after its first visit: expanded, `N = 1`, with
two fresh terminal children `Q = (1,1)` and `Q = (0,0)`. -/
def exampleRootExpanded : Node Nat :=
  .act 0 (some 0) ⟨1/2, 1/2⟩ 1 ⟨0, 0⟩
    [(0, .act 1 (some 0) ⟨1, 1⟩ 0 ⟨0, 0⟩ [] none (some 1) none none false),
     (1, .act 2 (some 0) ⟨0, 0⟩ 0 ⟨0, 0⟩ [] none (some 0) none none false)]
    (some [1/2, 1/2]) (some (1/2)) (some [1, 0]) none true

/-- Concrete witness for C5, the scenario of the spec: the first visit of the
fresh two-action root creates exactly the two terminal children with
`Q = (1, 1)` and `Q = (0, 0)`, zero visits each, and recurses nowhere. -/
theorem c5_first_visit_expands_only_witness :
    (([] : List Nat) = [] ∧ (none : Option Nat) = none ∧
      exampleRootExpanded.N = exampleRoot.N + 1 ∧
      exampleRootExpanded.expanded = true ∧
      exampleRootExpanded.children.map Prod.fst = exampleEnv.get_actions exampleRoot.info_set ∧
      ∀ p ∈ exampleRootExpanded.children, p.2.N = 0) ∧
    exampleRootExpanded.children.map
        (fun p => (p.1, p.2.Q, p.2.N, p.2.terminal exampleEnv)) =
      [(0, ⟨1, 1⟩, 0, true), (1, ⟨0, 0⟩, 0, true)] :=
  ⟨c5_first_visit_expands_only exampleEnv 2 exampleRoot [] (exampleRootExpanded, [], none)
      rfl rfl rfl (by with_unfolding_all rfl),
   by with_unfolding_all decide⟩

/-! ### C2: the PUCT candidate set -/

theorem getD_mem {α : Type} :
    ∀ (l : List α) (n : Nat) (d : α), n < l.length → l.getD n d ∈ l := by
  intro l
  induction l with
  | nil => intro n d h; exact absurd h (by simp)
  | cons x xs ih =>
    intro n d h
    cases n with
    | zero => simp
    | succ m => simpa using Or.inr (ih m d (by simpa using h))

theorem listMax?_spec :
    ∀ (l : List ℚ) (m : ℚ), listMax? l = some m → m ∈ l ∧ ∀ x ∈ l, x ≤ m := by
  have key : ∀ (xs : List ℚ) (a : ℚ),
      (xs.foldl max a = a ∨ xs.foldl max a ∈ xs) ∧ a ≤ xs.foldl max a ∧
      ∀ x ∈ xs, x ≤ xs.foldl max a := by
    intro xs
    induction xs with
    | nil => intro a; exact ⟨Or.inl rfl, le_refl a, by simp⟩
    | cons y ys ih =>
      intro a
      obtain ⟨h3, h1, h2⟩ := ih (max a y)
      refine ⟨?_, le_trans (le_max_left a y) (by rw [List.foldl_cons]; exact h1), ?_⟩
      · rcases h3 with h3 | h3
        · rcases max_choice a y with hmax | hmax
          · exact Or.inl (by rw [List.foldl_cons, h3, hmax])
          · refine Or.inr ?_
            rw [List.foldl_cons, h3, hmax]
            exact List.mem_cons_self y ys
        · exact Or.inr (List.mem_cons_of_mem y (by rw [List.foldl_cons]; exact h3))
      · intro x hx
        rcases List.mem_cons.mp hx with hx | hx
        · rw [List.foldl_cons, hx]
          exact le_trans (le_max_right a y) h1
        · rw [List.foldl_cons]
          exact h2 x hx
  intro l m hm
  cases l with
  | nil => exact Option.noConfusion hm
  | cons x xs =>
    simp only [listMax?, Option.some.injEq] at hm
    subst hm
    obtain ⟨h3, h1, h2⟩ := key xs x
    constructor
    · rcases h3 with h3 | h3
      · rw [h3]; exact List.mem_cons_self x xs
      · exact List.mem_cons_of_mem x h3
    · intro z hz
      rcases List.mem_cons.mp hz with hz | hz
      · subst hz; exact h1
      · exact h2 z hz

theorem mem_zipWith {α β γ : Type} (f : α → β → γ) :
    ∀ (l₁ : List α) (l₂ : List β) (c : γ), c ∈ List.zipWith f l₁ l₂ →
      ∃ a b, a ∈ l₁ ∧ b ∈ l₂ ∧ c = f a b := by
  intro l₁
  induction l₁ with
  | nil => simp
  | cons x xs ih =>
    intro l₂ c hc
    cases l₂ with
    | nil => simp at hc
    | cons y ys =>
      rcases List.mem_cons.mp hc with hc | hc
      · exact ⟨x, y, List.mem_cons_self x xs, List.mem_cons_self y ys, hc⟩
      · obtain ⟨a, b, ha, hb, hab⟩ := ih ys c hc
        exact ⟨a, b, List.mem_cons_of_mem x ha, List.mem_cons_of_mem y hb, hab⟩

theorem score_intervals_wf {ι : Type} (env : Env ι) (node : Node ι)
    (scores : List Interval) (hs : score_intervals env node = some scores)
    (hwf : ∀ p ∈ node.children, p.2.Q.lo ≤ p.2.Q.hi) :
    ∀ s ∈ scores, s.lo ≤ s.hi := by
  simp only [score_intervals, bind, Option.bind_eq_some] at hs
  obtain ⟨p, hp, hs⟩ := hs
  split at hs
  · intro s hmem
    rw [Option.some.injEq] at hs
    subst hs
    obtain ⟨pk, pr, _, hpr, hps⟩ := mem_zipWith _ p node.children s hmem
    subst hps
    exact add_le_add_right (hwf pr hpr) _
  · exact Option.noConfusion hs

theorem filter_range_singleton (p : Nat → Bool) :
    ∀ (c i : Nat), i < c → p i = true → (∀ j, j < c → j ≠ i → p j = false) →
      (List.range c).filter p = [i] := by
  intro c
  induction c with
  | zero => intro i hi; exact absurd hi (Nat.not_lt_zero i)
  | succ c ih =>
    intro i hi hpi hpj
    rw [List.range_succ, List.filter_append]
    by_cases hic : i = c
    · subst hic
      have hnil : (List.range i).filter p = [] := by
        apply List.filter_eq_nil_iff.mpr
        intro j hj
        simp only [List.mem_range] at hj
        simp [hpj j (Nat.lt_succ_of_lt hj) (Nat.ne_of_lt hj)]
      simp [hnil, hpi]
    · have hlt : i < c := lt_of_le_of_ne (Nat.lt_succ_iff.mp hi) hic
      have hmain := ih i hlt hpi (fun j hj hne => hpj j (Nat.lt_succ_of_lt hj) hne)
      have hc : p c = false := hpj c (Nat.lt_succ_self c) (fun h => hic (h.symm))
      simp [hmain, hc]

/-- C2 (amended): if one child's score interval (child `Q` plus the
exploration bonus on both bounds) has a lower bound exceeding every other
child's upper bound by more than `1e-8`, the candidate set is exactly that
one index; in general the candidate set consists of every index whose score
upper bound is at least `bestLower − 1e-8`, `bestLower` being the maximal
score lower bound. -/
theorem c2_computePUCT {ι : Type} :
    (∀ (env : Env ι) (node : Node ι) (scores : List Interval) (i : Nat),
       score_intervals env node = some scores →
       (∀ p ∈ node.children, p.2.Q.lo ≤ p.2.Q.hi) →
       i < scores.length →
       (∀ j, j < scores.length → j ≠ i →
          (scores.getD j default).hi + 1/100000000 < (scores.getD i default).lo) →
       (ActionNode.computePUCT env node).map Prod.snd = some [i]) ∧
    (∀ (env : Env ι) (node : Node ι) (qs : List Interval) (cand : List Nat),
       ActionNode.computePUCT env node = some (qs, cand) →
       ∃ scores bl, score_intervals env node = some scores ∧
         listMax? (scores.map Interval.lo) = some bl ∧
         cand = (List.range scores.length).filter
           (fun j => bl - 1/100000000 ≤ (scores.getD j default).hi)) := by
  constructor
  · intro env node scores i hs hwf hi hmargin
    have hwfs := score_intervals_wf env node scores hs hwf
    obtain ⟨bl, hbl⟩ : ∃ bl, listMax? (scores.map Interval.lo) = some bl := by
      cases hsc : scores with
      | nil => rw [hsc] at hi; exact absurd hi (by simp)
      | cons s ss => exact ⟨_, rfl⟩
    obtain ⟨hmem, hub⟩ := listMax?_spec _ bl hbl
    have hgetmem : scores.getD i default ∈ scores := getD_mem scores i default hi
    have hloi_le : (scores.getD i default).lo ≤ bl :=
      hub _ (List.mem_map_of_mem Interval.lo hgetmem)
    have hbl_le : bl ≤ (scores.getD i default).lo := by
      obtain ⟨s, hsmem, hslo⟩ := List.mem_map.mp hmem
      obtain ⟨j, hj, hsj⟩ := List.mem_iff_getElem.mp hsmem
      have hsd : scores.getD j default = s := by
        rw [List.getD_eq_getElem scores default hj, hsj]
      by_cases hji : j = i
      · subst hji
        rw [← hsd] at hslo
        exact le_of_eq hslo.symm
      · have h1 : s.lo ≤ s.hi := hwfs s hsmem
        have h2 := hmargin j hj hji
        rw [hsd] at h2
        rw [← hslo]
        linarith
    have hbleq : bl = (scores.getD i default).lo := le_antisymm hbl_le hloi_le
    have hcp : ActionNode.computePUCT env node =
        some (node.children.map (fun pr => pr.2.Q),
          (List.range scores.length).filter
            (fun j => decide (bl - 1/100000000 ≤ (scores.getD j default).hi))) := by
      simp only [ActionNode.computePUCT, hs, bind, Option.some_bind, hbl]
    have hpi : (fun j => decide (bl - 1/100000000 ≤ (scores.getD j default).hi)) i = true := by
      simp only [decide_eq_true_eq]
      rw [hbleq]
      have := hwfs _ hgetmem
      linarith
    have hpj : ∀ j, j < scores.length → j ≠ i →
        (fun j => decide (bl - 1/100000000 ≤ (scores.getD j default).hi)) j = false := by
      intro j hj hne
      simp only [decide_eq_false_iff_not, not_le]
      rw [hbleq]
      have := hmargin j hj hne
      linarith
    rw [hcp, Option.map_some']
    rw [filter_range_singleton _ scores.length i hi hpi hpj]
  · intro env node qs cand hc
    simp only [ActionNode.computePUCT, bind, Option.bind_eq_some] at hc
    obtain ⟨scores, hs, bl, hbl, hc⟩ := hc
    rw [Option.some.injEq, Prod.mk.injEq] at hc
    exact ⟨scores, bl, hs, hbl, hc.2.symm⟩

/-- An expanded two-child node whose second child's score interval lies less
than `1e-8` below the first child's: child 0 has `Q = (1, 1)`, child 1 has
`Q = (1 − 1e-9, 1 − 1e-9)`, all visit counts zero (so the exploration bonus
is zero). -/
def c2Node : Node Nat :=
  .act 0 (some 0) ⟨0, 0⟩ 1 ⟨0, 0⟩
    [(0, .act 1 (some 0) ⟨1, 1⟩ 0 ⟨0, 0⟩ [] none (some 1) none none false),
     (1, .act 2 (some 0) ⟨1 - 1/1000000000, 1 - 1/1000000000⟩ 0 ⟨0, 0⟩ [] none (some 1) none none false)]
    (some [1/2, 1/2]) (some (1/2)) (some [1, 0]) none true

/-- Counterexample to C2 as stated: the score intervals of `c2Node` exist
(two children, exploration bonus zero), child 0's score-interval lower bound
strictly exceeds child 1's upper bound (`1 > 1 − 1e-9`), yet the candidate
set is `[0, 1]` of size 2, because child 1 is within the `1e-8` slack.
(Score values are observed through comparisons rather than by a literal
equality so that their rational normal forms need not be computed.) -/
theorem c2_computePUCT_counterexample :
    (score_intervals exampleEnv c2Node).map
        (fun l => (l.length, decide ((l.getD 1 default).hi < (l.getD 0 default).lo))) =
      some (2, true) ∧
    (ActionNode.computePUCT exampleEnv c2Node).map Prod.snd = some [0, 1] := by
  exact ⟨by with_unfolding_all decide, by with_unfolding_all decide⟩

/-- Concrete witness for C2: with children `Q = (1,1)` and `Q = (0,0)` the
margin exceeds `1e-8` and the candidate set is exactly `[0]`. -/
theorem c2_computePUCT_witness :
    (ActionNode.computePUCT exampleEnv exampleRootExpanded).map Prod.snd = some [0] :=
  c2_computePUCT.1 exampleEnv exampleRootExpanded [⟨1, 1⟩, ⟨0, 0⟩] 0
    (by with_unfolding_all decide)
    (by with_unfolding_all decide)
    (by norm_num)
    (by
      intro j hj hne
      rcases j with _ | j
      · exact absurd rfl hne
      · rcases j with _ | j
        · with_unfolding_all decide
        · exfalso
          simp only [List.length_cons, List.length_nil] at hj
          omega)

/-! ### C10: which visit paths return the selected action -/

theorem unspawned_visit_some_action {ι : Type} (env : Env ι)
    (rec : Node ι → List Nat → Option (Node ι × List Nat × Option Nat))
    (node : Node ι) (rng : List Nat) (res : Node ι × List Nat × Option Nat)
    (h : ActionNode.unspawned_visit env rec node rng = some res) :
    ∃ a, res.2.2 = some a := by
  simp only [ActionNode.unspawned_visit, bind, Option.bind_eq_some] at h
  obtain ⟨pr, hpr, x, hx, h⟩ := h
  obtain ⟨idx, rng1⟩ := x
  simp only [bind, Option.bind_eq_some] at h
  obtain ⟨a, ha, child, hchild, y, hy, h⟩ := h
  obtain ⟨c', rng2, act⟩ := y
  simp only [bind, Option.bind_eq_some] at h
  obtain ⟨p, hp, u, hu, v, hv, heq⟩ := h
  rw [Option.some.injEq] at heq
  subst heq
  exact ⟨a, rfl⟩

theorem visit_body_no_action {ι : Type} (env : Env ι)
    (rec : Node ι → List Nat → Option (Node ι × List Nat × Option Nat))
    (node : Node ι) (rng : List Nat) (res : Node ι × List Nat × Option Nat)
    (h : SamplingNode.visit_body env rec node rng = some res) :
    res.2.2 = none := by
  simp only [SamplingNode.visit_body, bind, Option.bind_eq_some] at h
  obtain ⟨n1, hn1, hl, hhl, x, hx, h⟩ := h
  obtain ⟨hidx, rng1⟩ := x
  simp only [bind, Option.bind_eq_some] at h
  obtain ⟨child, hchild, y, hy, h⟩ := h
  obtain ⟨c', rng2, act⟩ := y
  simp only [bind, Option.bind_eq_some] at h
  obtain ⟨u, hu, v, hv, heq⟩ := h
  rw [Option.some.injEq] at heq
  subst heq
  rfl

/-- C10: a successful `visit` returns a selected action precisely on the
non-terminal, already-expanded, spawned-tree-free `ActionNode` path; the
terminal, expansion-only and spawned paths return `None`, and a
`SamplingNode` visit always returns `None`.  Consequently `spawned_visit`'s
children lookup on the spawned root's returned action fails whenever the
spawned root's visit did not take the unspawned selection path: with a
terminal, already-visited spawned root, `spawned_visit` is a `KeyError`
(failure), for every fuel. -/
theorem c10_visit_returned_action {ι : Type} :
    (∀ (env : Env ι) (fuel : Nat) (node : Node ι) (rng : List Nat)
       (res : Node ι × List Nat × Option Nat),
       visit env fuel node rng = some res →
       ((∃ a, res.2.2 = some a) ↔
         (node.isAct = true ∧ node.terminal env = false ∧ node.expanded = true ∧
          node.spawned_tree = none))) ∧
    (∀ (env : Env ι) (fuel : Nat) (node st : Node ι) (rng : List Nat),
       st.N ≠ 0 → st.isAct = true → st.terminal env = true →
       ActionNode.spawned_visit env (visit env fuel) node st rng = none) := by
  constructor
  · intro env fuel node rng res h
    cases fuel with
    | zero => exact Option.noConfusion h
    | succ fuel =>
      rw [visit_succ] at h
      simp only [visit_step, isAct_bumpN, expanded_bumpN, spawned_tree_bumpN] at h
      by_cases hact : node.isAct = true
      · rw [if_pos hact] at h
        by_cases hterm : node.terminal env = true
        · rw [show node.bumpN.terminal env = true by
            simpa [Node.terminal] using hterm, if_pos rfl] at h
          rw [Option.some.injEq] at h
          subst h
          simp [hterm]
        · rw [show node.bumpN.terminal env = false by
            simpa [Node.terminal] using (Bool.not_eq_true _).mp hterm] at h
          simp only [Bool.false_eq_true, if_false] at h
          by_cases hexp : node.expanded = true
          · rw [hexp] at h
            simp only [Bool.true_eq_false, if_false] at h
            cases hsp : node.spawned_tree with
            | some st =>
              rw [hsp] at h
              simp only [bind, Option.bind_eq_some] at h
              obtain ⟨x, hx, heq⟩ := h
              obtain ⟨n', r'⟩ := x
              rw [Option.some.injEq] at heq
              subst heq
              simp [hsp]
            | none =>
              rw [hsp] at h
              obtain ⟨a, ha⟩ := unspawned_visit_some_action env (visit env fuel)
                node.bumpN rng res h
              simp [ha, hact, hexp, hsp, (Bool.not_eq_true _).mp hterm]
          · rw [(Bool.not_eq_true _).mp hexp] at h
            simp only [eq_self_iff_true, if_true, bind, Option.bind_eq_some] at h
            obtain ⟨n', hn', heq⟩ := h
            rw [Option.some.injEq] at heq
            subst heq
            simp [hexp]
      · rw [if_neg hact] at h
        have := visit_body_no_action env (visit env fuel) node.bumpN rng res h
        simp [this, hact]
  · intro env fuel node st rng hN hact hterm
    cases fuel with
    | zero =>
      simp [ActionNode.spawned_visit, hN, visit_zero, bind]
    | succ fuel =>
      have hv : visit env (fuel + 1) st rng = some (st.bumpN, rng, none) := by
        rw [visit_succ]
        simp only [visit_step, isAct_bumpN, hact, if_true]
        rw [show st.bumpN.terminal env = true by simpa [Node.terminal] using hterm]
        simp
      simp [ActionNode.spawned_visit, hN, hv, bind]

/-- A terminal `ActionNode` of `exampleEnv` (info set 1, outcome value 1 for
owner 0), before and after one visit. -/
def terminalNode : Node Nat :=
  .act 1 (some 0) ⟨1, 1⟩ 0 ⟨0, 0⟩ [] none (some 1) none none false

def terminalNodeVisited : Node Nat :=
  .act 1 (some 0) ⟨1, 1⟩ 1 ⟨0, 0⟩ [] none (some 1) none none false

/-- Concrete witness for C10: a visit of the terminal node returns no action
(and indeed the node is terminal, so the unspawned-path characterization is
an equivalence of false sides), and `spawned_visit` on an already-visited
terminal spawned root fails. -/
theorem c10_visit_returned_action_witness :
    ((∃ a, (none : Option Nat) = some a) ↔
      (terminalNode.isAct = true ∧ terminalNode.terminal exampleEnv = false ∧
       terminalNode.expanded = true ∧ terminalNode.spawned_tree = none)) ∧
    ActionNode.spawned_visit exampleEnv (visit exampleEnv 1) exampleRootExpanded
      terminalNodeVisited [] = none :=
  ⟨c10_visit_returned_action.1 exampleEnv 1 terminalNode [] (terminalNodeVisited, [], none)
      (by with_unfolding_all rfl),
   c10_visit_returned_action.2 exampleEnv 1 exampleRootExpanded terminalNodeVisited []
      (by decide) rfl rfl⟩

/-! ### Full characterizations of the three recursing visit paths -/

theorem unspawned_visit_spec {ι : Type} (env : Env ι)
    (rec : Node ι → List Nat → Option (Node ι × List Nat × Option Nat))
    (node : Node ι) (rng : List Nat) (res : Node ι × List Nat × Option Nat)
    (h : ActionNode.unspawned_visit env rec node rng = some res) :
    ∃ a child cres p u v,
      lookupFirst a node.children = some child ∧
      (∃ rng1, rec child rng1 = some cres ∧ res.2.1 = cres.2.1) ∧
      node.P = some p ∧
      calc_union_interval env (node.setChildren (updateFirst a cres.1 node.children)) p
        = some u ∧
      node.V = some v ∧
      res.2.2 = some a ∧
      res.1.children = updateFirst a cres.1 node.children ∧
      res.1.Q = u.add cres.1.residual_Q_to_V ∧
      res.1.residual_Q_to_V = residual_update node.residual_Q_to_V node.N res.1.Q v ∧
      res.1.N = node.N ∧ res.1.info_set = node.info_set ∧
      res.1.tree_owner = node.tree_owner ∧ res.1.expanded = node.expanded ∧
      res.1.spawned_tree = node.spawned_tree ∧ res.1.isAct = node.isAct ∧
      res.1.V = node.V ∧ res.1.P = node.P := by
  simp only [ActionNode.unspawned_visit, bind, Option.bind_eq_some] at h
  obtain ⟨pr, hpr, x, hx, h⟩ := h
  obtain ⟨idx, rng1⟩ := x
  simp only [bind, Option.bind_eq_some] at h
  obtain ⟨a, ha, child, hchild, y, hy, h⟩ := h
  obtain ⟨c', rng2, act⟩ := y
  simp only [bind, Option.bind_eq_some] at h
  obtain ⟨p, hp, u, hu, v, hv, heq⟩ := h
  rw [Option.some.injEq] at heq
  subst heq
  refine ⟨a, child, (c', rng2, act), p, u, v, hchild, ⟨rng1, hy, rfl⟩,
    by simpa using hp, hu, by simpa using hv, rfl, by simp, by simp, ?_, by simp,
    by simp, by simp, by simp, by simp, by simp, by simp⟩
  simp [residual_update]

theorem spawned_visit_spec {ι : Type} (env : Env ι)
    (rec : Node ι → List Nat → Option (Node ι × List Nat × Option Nat))
    (node st : Node ι) (rng : List Nat) (res : Node ι × List Nat)
    (h : ActionNode.spawned_visit env rec node st rng = some res)
    (hact : node.isAct = true) :
    ∃ st2 a child cres p u v,
      lookupFirst a node.children = some child ∧
      (∃ rng1, rec child rng1 = some cres ∧ res.2 = cres.2.1) ∧
      node.P = some p ∧
      calc_union_interval env
        ((node.setSpawned (some st2)).setChildren
          (updateFirst a cres.1 node.children)) p = some u ∧
      node.V = some v ∧
      res.1.children = updateFirst a cres.1 node.children ∧
      res.1.Q = u.add cres.1.residual_Q_to_V ∧
      res.1.residual_Q_to_V = residual_update node.residual_Q_to_V node.N res.1.Q v ∧
      res.1.N = node.N ∧ res.1.info_set = node.info_set ∧
      res.1.tree_owner = node.tree_owner ∧ res.1.expanded = node.expanded ∧
      res.1.spawned_tree = some st2 ∧ res.1.isAct = node.isAct ∧
      res.1.V = node.V ∧ res.1.P = node.P ∧
      (∃ st1 rngb,
        ((st.N = 0 ∧ ∃ bres, rec st rng = some bres ∧ st1 = bres.1 ∧ rngb = bres.2.1) ∨
         (st.N ≠ 0 ∧ st1 = st ∧ rngb = rng)) ∧
        ∃ vres, rec st1 rngb = some vres ∧ st2 = vres.1 ∧ vres.2.2 = some a) := by
  simp only [ActionNode.spawned_visit, bind, Option.bind_eq_some] at h
  obtain ⟨x, hx, h⟩ := h
  obtain ⟨st1, rngb⟩ := x
  simp only [bind, Option.bind_eq_some] at h
  obtain ⟨y, hy, h⟩ := h
  obtain ⟨st2, rngc, actOpt⟩ := y
  simp only [bind, Option.bind_eq_some] at h
  obtain ⟨a, hact2, child, hchild, z, hz, h⟩ := h
  obtain ⟨c', rng2, act2⟩ := z
  simp only [bind, Option.bind_eq_some] at h
  obtain ⟨p, hp, u, hu, v, hv, heq⟩ := h
  rw [Option.some.injEq] at heq
  subst heq
  refine ⟨st2, a, child, (c', rng2, act2), p, u, v,
    ?_, ?_, ?_, ?_, ?_, ?_, ?_, ?_, ?_, ?_, ?_, ?_, ?_, ?_, ?_, ?_, ?_⟩
  · simpa using hchild
  · exact ⟨rngc, hz, rfl⟩
  · simpa using hp
  · simpa using hu
  · simpa using hv
  · simp
  · simp
  · simp [residual_update]
  · simp
  · simp
  · simp
  · simp
  · simp [hact]
  · simp
  · simp
  · simp
  · refine ⟨st1, rngb, ?_, (st2, rngc, actOpt), hy, rfl, hact2⟩
    by_cases hN : st.N = 0
    · rw [if_pos hN] at hx
      simp only [bind, Option.bind_eq_some] at hx
      obtain ⟨w, hw, hx⟩ := hx
      rw [Option.some.injEq, Prod.mk.injEq] at hx
      exact Or.inl ⟨hN, w, hw, hx.1.symm, hx.2.symm⟩
    · rw [if_neg hN] at hx
      rw [Option.some.injEq, Prod.mk.injEq] at hx
      exact Or.inr ⟨hN, hx.1.symm, hx.2.symm⟩

theorem visit_body_spec {ι : Type} (env : Env ι)
    (rec : Node ι → List Nat → Option (Node ι × List Nat × Option Nat))
    (node : Node ι) (rng : List Nat) (res : Node ι × List Nat × Option Nat)
    (h : SamplingNode.visit_body env rec node rng = some res) :
    ∃ node1 hl hidden child cres u v,
      (if node.expanded = true then node1 = node
       else SamplingNode.expand env node = some node1) ∧
      node1.H = some hl ∧
      lookupFirst hidden node1.children = some child ∧
      (∃ rng1, rec child rng1 = some cres ∧ res.2.1 = cres.2.1) ∧
      calc_union_interval env (node1.setChildren (updateFirst hidden cres.1 node1.children)) hl
        = some u ∧
      node1.V = some v ∧
      res.2.2 = none ∧
      res.1.children = updateFirst hidden cres.1 node1.children ∧
      res.1.Q = u.add cres.1.residual_Q_to_V ∧
      res.1.residual_Q_to_V = residual_update node1.residual_Q_to_V node1.N res.1.Q v ∧
      res.1.N = node1.N ∧ res.1.info_set = node1.info_set ∧
      res.1.tree_owner = node1.tree_owner ∧ res.1.isAct = node1.isAct ∧
      res.1.V = node1.V ∧ res.1.spawned_tree = node1.spawned_tree ∧
      res.1.expanded = node1.expanded := by
  simp only [SamplingNode.visit_body, bind, Option.bind_eq_some] at h
  obtain ⟨node1, hnode1, hl, hhl, x, hx, h⟩ := h
  obtain ⟨hidden, rng1⟩ := x
  simp only [bind, Option.bind_eq_some] at h
  obtain ⟨child, hchild, y, hy, h⟩ := h
  obtain ⟨c', rng2, act⟩ := y
  simp only [bind, Option.bind_eq_some] at h
  obtain ⟨u, hu, v, hv, heq⟩ := h
  rw [Option.some.injEq] at heq
  subst heq
  refine ⟨node1, hl, hidden, child, (c', rng2, act), u, v, ?_, hhl, hchild,
    ⟨rng1, hy, rfl⟩, hu, by simpa using hv, rfl, by simp, by simp, ?_, by simp,
    by simp, by simp, by simp, by simp, by simp, by simp⟩
  · by_cases hexp : node.expanded = true
    · rw [if_pos hexp] at hnode1 ⊢
      rw [Option.some.injEq] at hnode1
      exact hnode1.symm
    · rw [if_neg hexp] at hnode1 ⊢
      exact hnode1
  · simp [residual_update]

/-! ### C7: the residual accumulator -/

theorem SamplingNode.expand_pres {ι : Type} (env : Env ι) (node n1 : Node ι)
    (h : SamplingNode.expand env node = some n1) :
    n1.N = node.N ∧ n1.residual_Q_to_V = node.residual_Q_to_V ∧
    n1.info_set = node.info_set ∧ n1.tree_owner = node.tree_owner ∧
    n1.isAct = node.isAct ∧ n1.expanded = true := by
  simp only [SamplingNode.expand, bind, Option.bind_eq_some, Option.some.injEq] at h
  obtain ⟨vc, hvc, ch, hch, heq⟩ := h
  subst heq
  simp

/-- C7 (amended): `residual_Q_to_V` is an accumulator initialized to the
scalar 0 by both node constructors; after every successful visit that
recurses into a child (the expanded non-terminal `ActionNode` paths and every
`SamplingNode` visit), it equals
`((N − 1) * residual_Q_to_V + (Q − V)) / N` computed componentwise on the
interval `Q` — so it is an interval in general, not a scalar — where `N` and
the recomputed `Q` and `V` are those of the node after the visit. -/
theorem c7_residual_running_mean {ι : Type} :
    (∀ (env : Env ι) (i : ι) (ow : Option Nat) (q : ℚ) (m : Node ι),
       mkActionNode env i ow q = some m → m.residual_Q_to_V = ⟨0, 0⟩) ∧
    (∀ (env : Env ι) (i : ι) (ow : Option Nat) (q : ℚ) (m : Node ι),
       mkSamplingNode env i ow q = some m → m.residual_Q_to_V = ⟨0, 0⟩) ∧
    (∀ (env : Env ι) (fuel : Nat) (node : Node ι) (rng : List Nat)
       (res : Node ι × List Nat × Option Nat),
       visit env fuel node rng = some res →
       ((node.isAct = true ∧ node.expanded = true ∧ node.terminal env = false) ∨
        node.isAct = false) →
       ∃ v, res.1.V = some v ∧
         res.1.residual_Q_to_V = residual_update node.residual_Q_to_V res.1.N res.1.Q v) := by
  refine ⟨?_, ?_, ?_⟩
  · intro env i ow q m hm
    unfold mkActionNode at hm
    split at hm
    · injection hm with h; subst h; rfl
    · simp only [bind, Option.bind_eq_some, Option.some.injEq] at hm
      obtain ⟨o, ho, v, hv, hm⟩ := hm
      subst hm; rfl
  · intro env i ow q m hm
    unfold mkSamplingNode at hm
    simp only at hm
    split at hm
    · injection hm with h; subst h; rfl
    · exact Option.noConfusion hm
  · intro env fuel node rng res h hcond
    cases fuel with
    | zero => exact Option.noConfusion h
    | succ fuel =>
      rw [visit_succ] at h
      simp only [visit_step, isAct_bumpN, expanded_bumpN, spawned_tree_bumpN] at h
      rcases hcond with ⟨hact, hexp, hterm⟩ | hsampl
      · rw [if_pos hact] at h
        rw [show node.bumpN.terminal env = false by
          simpa [Node.terminal] using hterm] at h
        simp only [Bool.false_eq_true, if_false] at h
        rw [hexp] at h
        simp only [Bool.true_eq_false, if_false] at h
        cases hsp : node.spawned_tree with
        | some st =>
          rw [hsp] at h
          simp only [bind, Option.bind_eq_some] at h
          obtain ⟨x, hx, heq⟩ := h
          obtain ⟨n', r'⟩ := x
          rw [Option.some.injEq] at heq
          subst heq
          obtain ⟨st2, a, child, cres, p, u, v, h1, h2, h3, h4, h5, h6, h7, h8, h9,
            h10, h11, h12, h13, h14, h15, h16, h17⟩ :=
            spawned_visit_spec env (visit env fuel) node.bumpN st rng (n', r') hx
              (by simpa using hact)
          refine ⟨v, ?_, ?_⟩
          · simpa using h15.trans (by simpa using h5)
          · simpa [h9] using h8
        | none =>
          rw [hsp] at h
          obtain ⟨a, child, cres, p, u, v, h1, h2, h3, h4, h5, h6, h7, h8, h9,
            h10, h11, h12, h13, h14, h15, h16, h17⟩ :=
            unspawned_visit_spec env (visit env fuel) node.bumpN rng res h
          refine ⟨v, ?_, ?_⟩
          · simpa using h16.trans (by simpa using h5)
          · simpa [h10] using h9
      · rw [if_neg (by simp [hsampl])] at h
        obtain ⟨node1, hl, hidden, child, cres, u, v, h1, h2, h3, h4, h5, h6, h7,
          h8, h9, h10, h11, h12, h13, h14, h15⟩ :=
          visit_body_spec env (visit env fuel) node.bumpN rng res h
        by_cases hexp : node.expanded = true
        · rw [if_pos (by simpa using hexp)] at h1
          subst h1
          refine ⟨v, h15.1.trans h6, ?_⟩
          simpa [h11] using h10
        · rw [if_neg (by simpa using hexp)] at h1
          obtain ⟨e1, e2, e3, e4, e5, e6⟩ := SamplingNode.expand_pres env node.bumpN node1 h1
          refine ⟨v, h15.1.trans h6, ?_⟩
          rw [h10, e2, h11, e1]
          simp

/-- Counterexample to C7 as stated: after the second visit of the two-action
example root, `residual_Q_to_V` is the interval `(−1/40, 1/40)` — a length-2
vector with distinct components, not a scalar (the update adds the interval
`Q − V` to the accumulator, and `Q = (9/20, 11/20)` is non-degenerate). -/
theorem c7_residual_not_scalar :
    (((do
        let r1 ← visit exampleEnv 5 exampleRoot []
        visit exampleEnv 5 r1.1 r1.2.1) : Option (Node Nat × List Nat × Option Nat)).map
      (fun r => (r.1.residual_Q_to_V.lo, r.1.residual_Q_to_V.hi))) = some (-1/40, 1/40) ∧
    (-1/40 : ℚ) ≠ 1/40 :=
  ⟨by with_unfolding_all decide, by norm_num⟩

/-- The example root after its second visit. -/
def exampleRootVisited : Node Nat :=
  .act 0 (some 0) ⟨9/20, 11/20⟩ 2 ⟨-1/40, 1/40⟩
    [(0, terminalNodeVisited),
     (1, .act 2 (some 0) ⟨0, 0⟩ 0 ⟨0, 0⟩ [] none (some 0) none none false)]
    (some [1/2, 1/2]) (some (1/2)) (some [1, 0]) none true

/-- Concrete witness for C7: the second visit of the example root satisfies
the componentwise running-mean update (with `N = 2`, `Q = (9/20, 11/20)`,
`V = 1/2`, yielding `(−1/40, 1/40)`). -/
theorem c7_residual_running_mean_witness :
    ∃ v, exampleRootVisited.V = some v ∧
      exampleRootVisited.residual_Q_to_V =
        residual_update exampleRootExpanded.residual_Q_to_V exampleRootVisited.N
          exampleRootVisited.Q v :=
  c7_residual_running_mean.2.2 exampleEnv 5 exampleRootExpanded []
    (exampleRootVisited, [], some 0) (by with_unfolding_all rfl)
    (Or.inl ⟨rfl, rfl, rfl⟩)

/-! ### C8: well-formedness (`Q.lower ≤ Q.upper` everywhere) and the visit
counter -/

/-- Well-formed node: the `Q` interval and the residual accumulator are
ordered, recursively for all children and any spawned tree. -/
inductive WF {ι : Type} : Node ι → Prop where
  | mk (n : Node ι) :
      n.Q.lo ≤ n.Q.hi →
      n.residual_Q_to_V.lo ≤ n.residual_Q_to_V.hi →
      (∀ p ∈ n.children, WF p.2) →
      (∀ st, n.spawned_tree = some st → WF st) →
      WF n

theorem WF.out {ι : Type} {n : Node ι} (h : WF n) :
    n.Q.lo ≤ n.Q.hi ∧ n.residual_Q_to_V.lo ≤ n.residual_Q_to_V.hi ∧
    (∀ p ∈ n.children, WF p.2) ∧ (∀ st, n.spawned_tree = some st → WF st) := by
  cases h with
  | mk _ h1 h2 h3 h4 => exact ⟨h1, h2, h3, h4⟩

theorem WF_congr {ι : Type} {m n : Node ι} (hq : m.Q = n.Q)
    (hr : m.residual_Q_to_V = n.residual_Q_to_V) (hc : m.children = n.children)
    (hs : m.spawned_tree = n.spawned_tree) (h : WF n) : WF m := by
  obtain ⟨h1, h2, h3, h4⟩ := h.out
  exact WF.mk m (by rw [hq]; exact h1) (by rw [hr]; exact h2)
    (by rw [hc]; exact h3) (by rw [hs]; exact h4)

theorem WF_bumpN {ι : Type} {n : Node ι} (h : WF n) : WF n.bumpN :=
  WF_congr (by simp) (by simp) (by simp) (by simp) h

theorem mkActionNode_WF {ι : Type} (env : Env ι) (i : ι) (ow : Option Nat) (q : ℚ)
    (m : Node ι) (hm : mkActionNode env i ow q = some m) : WF m := by
  unfold mkActionNode at hm
  split at hm
  · injection hm with h
    subst h
    exact WF.mk _ (le_refl _) (le_refl _) (by simp [Node.children])
      (by simp [Node.spawned_tree])
  · simp only [bind, Option.bind_eq_some, Option.some.injEq] at hm
    obtain ⟨o, ho, v, hv, hm⟩ := hm
    subst hm
    exact WF.mk _ (le_refl _) (le_refl _) (by simp [Node.children])
      (by simp [Node.spawned_tree])

theorem mkSamplingNode_WF {ι : Type} (env : Env ι) (i : ι) (ow : Option Nat) (q : ℚ)
    (m : Node ι) (hm : mkSamplingNode env i ow q = some m) : WF m := by
  unfold mkSamplingNode at hm
  simp only at hm
  split at hm
  · injection hm with h
    subst h
    exact WF.mk _ (le_refl _) (le_refl _) (by simp [Node.children])
      (by simp [Node.spawned_tree])
  · exact Option.noConfusion hm

theorem eval_model_WF {ι : Type} (env : Env ι) {n : Node ι} (h : WF n) :
    WF (eval_model env n) := by
  obtain ⟨h1, h2, h3, h4⟩ := h.out
  cases n with
  | act i o q nn r c p v vc s e =>
    simp only [eval_model]
    split
    · exact h
    · refine WF.mk _ (le_refl _) ?_ ?_ ?_
      · simpa [Node.residual_Q_to_V] using h2
      · simpa [Node.children] using h3
      · simpa [Node.spawned_tree] using h4
  | samp i o q nn r c hh v vc m e =>
    simp only [eval_model]
    split
    · exact h
    · refine WF.mk _ (le_refl _) ?_ ?_ ?_
      · simpa [Node.residual_Q_to_V] using h2
      · simpa [Node.children] using h3
      · simpa [Node.spawned_tree] using h4

theorem create_spawned_tree_WF {ι : Type} (env : Env ι) (j : ι) (st : Node ι)
    (h : SamplingNode.create_spawned_tree env j = some st) : WF st := by
  simp only [SamplingNode.create_spawned_tree, bind, Option.bind_eq_some,
    Option.some.injEq] at h
  obtain ⟨root, hroot, heq⟩ := h
  subst heq
  exact WF_congr (by simp) (by simp) (by simp) (by simp)
    (mkActionNode_WF env (env.redact j) none 0 root hroot)

theorem mkChild_WF {ι : Type} (env : Env ι) (ow : Option Nat) (cp : Nat) (j : ι)
    (q : ℚ) (c : Node ι) (hc : mkChild env ow cp j q = some c) : WF c := by
  unfold mkChild at hc
  split at hc
  · exact mkSamplingNode_WF env j ow q c hc
  · exact mkActionNode_WF env j ow q c hc

theorem expand_children_WF {ι : Type} (env : Env ι) (ow : Option Nat) (cp : Nat)
    (i : ι) (vc : List ℚ) :
    ∀ (acts : List Nat) (ch : List (Nat × Node ι)),
      expand_children env ow cp i vc acts = some ch → ∀ p ∈ ch, WF p.2 := by
  intro acts
  induction acts with
  | nil =>
    intro ch hch
    simp only [expand_children, Option.some.injEq] at hch
    subst hch
    simp
  | cons a rest ih =>
    intro ch hch
    simp only [expand_children, bind, Option.bind_eq_some, Option.some.injEq] at hch
    obtain ⟨q, hq, c₀, hc₀, rest', hrest, hcons⟩ := hch
    subst hcons
    intro p hp
    rcases List.mem_cons.mp hp with hp | hp
    · subst hp
      simp only [CHEAT, if_pos]
      exact eval_model_WF env (mkChild_WF env ow cp (env.apply i a) q c₀ hc₀)
    · exact ih rest' hrest p hp

theorem expand_hidden_children_WF {ι : Type} (env : Env ι) (ow : Option Nat) (cp : Nat)
    (i : ι) (vc : List ℚ) :
    ∀ (hs : List Nat) (ch : List (Nat × Node ι)),
      expand_hidden_children env ow cp i vc hs = some ch → ∀ p ∈ ch, WF p.2 := by
  intro hs
  induction hs with
  | nil =>
    intro ch hch
    simp only [expand_hidden_children, Option.some.injEq] at hch
    subst hch
    simp
  | cons hh rest ih =>
    intro ch hch
    simp only [expand_hidden_children, bind, Option.bind_eq_some, Option.some.injEq] at hch
    obtain ⟨q, hq, c₀, hc₀, rest', hrest, hcons⟩ := hch
    subst hcons
    intro p hp
    rcases List.mem_cons.mp hp with hp | hp
    · subst hp
      simp only [CHEAT, if_pos]
      refine eval_model_WF env ?_
      split at hc₀
      · split at hc₀
        · exact mkSamplingNode_WF env _ ow q c₀ hc₀
        · exact Option.noConfusion hc₀
      · simp only [bind, Option.bind_eq_some, Option.some.injEq] at hc₀
        obtain ⟨c₁, hc₁, st, hst, heq⟩ := hc₀
        subst heq
        obtain ⟨w1, w2, w3, w4⟩ := (mkActionNode_WF env _ ow q c₁ hc₁).out
        refine WF.mk _ (by simpa using w1) (by simpa using w2) (by simpa using w3) ?_
        intro st' hst'
        have hact : c₁.isAct = true := by
          unfold mkActionNode at hc₁
          split at hc₁
          · injection hc₁ with h; subst h; rfl
          · simp only [bind, Option.bind_eq_some, Option.some.injEq] at hc₁
            obtain ⟨o, ho, v, hv, hc₁⟩ := hc₁
            subst hc₁; rfl
        rw [spawned_tree_setSpawned c₁ (some st) hact, Option.some.injEq] at hst'
        subst hst'
        exact create_spawned_tree_WF env _ st hst
    · exact ih rest' hrest p hp

theorem action_expand_WF {ι : Type} (env : Env ι) {node n' : Node ι}
    (h : ActionNode.expand env node = some n') (hwf : WF node) : WF n' := by
  obtain ⟨h1, h2, h3, h4⟩ := hwf.out
  simp only [ActionNode.expand] at h
  split at h
  · rw [Option.some.injEq] at h
    subst h
    exact WF_congr (by simp) (by simp) (by simp) (by simp) hwf
  · simp only [bind, Option.bind_eq_some, Option.some.injEq] at h
    obtain ⟨vc, hvc, ch, hch, v, hv, heq⟩ := h
    subst heq
    refine WF.mk _ (by simp [to_interval]) (by simpa using h2) ?_ ?_
    · intro p hp
      rw [children_setQ, children_setChildren] at hp
      exact expand_children_WF env _ _ _ vc _ ch hch p hp
    · intro st hst
      simp only [spawned_tree_setQ, spawned_tree_setChildren, spawned_tree_eval_model,
        spawned_tree_setExpanded] at hst
      exact h4 st hst

theorem sampling_expand_WF {ι : Type} (env : Env ι) {node n1 : Node ι}
    (h : SamplingNode.expand env node = some n1) (hwf : WF node) : WF n1 := by
  have hewf := eval_model_WF env hwf
  obtain ⟨h1, h2, h3, h4⟩ := hewf.out
  simp only [SamplingNode.expand, bind, Option.bind_eq_some, Option.some.injEq] at h
  obtain ⟨vc, hvc, ch, hch, heq⟩ := h
  subst heq
  refine WF.mk _ (by simpa using h1) (by simpa using h2) ?_ ?_
  · intro p hp
    rw [children_setExpanded, children_setChildren] at hp
    exact expand_hidden_children_WF env _ _ _ vc _ ch hch p hp
  · intro st hst
    simp only [spawned_tree_setExpanded, spawned_tree_setChildren] at hst
    exact h4 st hst

theorem lookupFirst_mem {β : Type} (a : Nat) :
    ∀ (l : List (Nat × β)) (c : β), lookupFirst a l = some c → (a, c) ∈ l := by
  intro l
  induction l with
  | nil => intro c hc; exact Option.noConfusion hc
  | cons p rest ih =>
    intro c hc
    simp only [lookupFirst] at hc
    split at hc
    · rename_i hpa
      rw [Option.some.injEq] at hc
      apply List.mem_cons.mpr
      refine Or.inl ?_
      cases p with
      | mk p1 p2 =>
        simp only at hpa hc
        rw [← hpa, ← hc]
    · exact List.mem_cons_of_mem p (ih c hc)

theorem updateFirst_WF {ι : Type} (a : Nat) (c' : Node ι) :
    ∀ (l : List (Nat × Node ι)), (∀ p ∈ l, WF p.2) → WF c' →
      ∀ p ∈ updateFirst a c' l, WF p.2 := by
  intro l
  induction l with
  | nil => intro _ _ p hp; simp [updateFirst] at hp
  | cons hd rest ih =>
    intro hl hc' p hp
    by_cases hqa : hd.1 = a
    · rw [show updateFirst a c' (hd :: rest) = (a, c') :: rest by
        simp [updateFirst, hqa]] at hp
      rcases List.mem_cons.mp hp with hp | hp
      · subst hp; exact hc'
      · exact hl p (List.mem_cons_of_mem hd hp)
    · rw [show updateFirst a c' (hd :: rest) = hd :: updateFirst a c' rest by
        simp [updateFirst, hqa]] at hp
      rcases List.mem_cons.mp hp with hp | hp
      · rw [hp]; exact hl hd (List.mem_cons_self hd rest)
      · exact ih (fun r hr => hl r (List.mem_cons_of_mem hd hr)) hc' p hp

theorem calc_union_interval_wf {ι : Type} (env : Env ι)
    (hperturb : ∀ ivs ps e, (env.perturb_prob_simplex ivs ps e).lo ≤
      (env.perturb_prob_simplex ivs ps e).hi)
    (n : Node ι) (probs : List ℚ) (u : Interval)
    (h : calc_union_interval env n probs = some u) : u.lo ≤ u.hi := by
  simp only [calc_union_interval, bind, Option.bind_eq_some, Option.some.injEq] at h
  obtain ⟨vs, hvs, ps, hps, heq⟩ := h
  subst heq
  exact hperturb _ _ _

theorem Interval.add_wf {a b : Interval} (ha : a.lo ≤ a.hi) (hb : b.lo ≤ b.hi) :
    (a.add b).lo ≤ (a.add b).hi := by
  simp only [Interval.add]
  exact add_le_add ha hb

theorem residual_update_wf {r q : Interval} {n : Nat} {v : ℚ}
    (hr : r.lo ≤ r.hi) (hq : q.lo ≤ q.hi) (hn : 1 ≤ n) :
    (residual_update r n q v).lo ≤ (residual_update r n q v).hi := by
  have hn1 : (0:ℚ) ≤ (n:ℚ) - 1 := by
    have : (1:ℚ) ≤ (n:ℚ) := by exact_mod_cast hn
    linarith
  have hnpos : (0:ℚ) < (n:ℚ) := by
    have : (1:ℚ) ≤ (n:ℚ) := by exact_mod_cast hn
    linarith
  have hmul : r.lo * ((n:ℚ) - 1) ≤ r.hi * ((n:ℚ) - 1) :=
    mul_le_mul_of_nonneg_right hr hn1
  simp only [residual_update]
  exact (div_le_div_right hnpos).mpr (by linarith)

/-- Every successful `visit` increments the visited node's `N` by exactly
one: the increment happens on entry and no later update touches `N`. -/
theorem visit_N {ι : Type} (env : Env ι) (fuel : Nat) (node : Node ι) (rng : List Nat)
    (res : Node ι × List Nat × Option Nat)
    (h : visit env fuel node rng = some res) : res.1.N = node.N + 1 := by
  cases fuel with
  | zero => exact Option.noConfusion h
  | succ fuel =>
    rw [visit_succ] at h
    simp only [visit_step] at h
    by_cases hact : node.bumpN.isAct = true
    · rw [if_pos hact] at h
      by_cases hterm : node.bumpN.terminal env = true
      · rw [if_pos hterm, Option.some.injEq] at h
        subst h
        simp
      · rw [if_neg hterm] at h
        by_cases hexp : node.bumpN.expanded = false
        · rw [if_pos hexp] at h
          simp only [bind, Option.bind_eq_some, Option.some.injEq] at h
          obtain ⟨n', hn', heq⟩ := h
          subst heq
          have := (ActionNode.expand_spec env node.bumpN n'
            ((Bool.not_eq_true _).mp hterm) hn').1
          simpa using this
        · rw [if_neg hexp] at h
          cases hsp : node.bumpN.spawned_tree with
          | some st =>
            rw [hsp] at h
            simp only [bind, Option.bind_eq_some, Option.some.injEq] at h
            obtain ⟨x, hx, heq⟩ := h
            obtain ⟨n', r'⟩ := x
            subst heq
            obtain ⟨_, _, _, _, _, _, _, _, _, _, _, _, _, _, _, h9, _⟩ :=
              spawned_visit_spec env (visit env fuel) node.bumpN st rng (n', r') hx hact
            simpa using h9
          | none =>
            rw [hsp] at h
            obtain ⟨_, _, _, _, _, _, _, _, _, _, _, _, _, _, _, h10, _⟩ :=
              unspawned_visit_spec env (visit env fuel) node.bumpN rng res h
            simpa using h10
    · rw [if_neg hact] at h
      obtain ⟨node1, _, _, _, _, _, _, h1, _, _, _, _, _, _, _, _, _, h11, _⟩ :=
        visit_body_spec env (visit env fuel) node.bumpN rng res h
      by_cases hexp : node.bumpN.expanded = true
      · rw [if_pos hexp] at h1
        rw [h11, h1]
        simp
      · rw [if_neg hexp] at h1
        rw [h11, (SamplingNode.expand_pres env node.bumpN node1 h1).1]
        simp

/-- Every successful `visit` preserves well-formedness, assuming the simplex
perturbation always returns an ordered interval (which spec §4.4 guarantees
by construction: it is a minimum and a maximum over one feasible set). -/
theorem visit_WF {ι : Type} (env : Env ι)
    (hperturb : ∀ ivs ps e, (env.perturb_prob_simplex ivs ps e).lo ≤
      (env.perturb_prob_simplex ivs ps e).hi) :
    ∀ (fuel : Nat) (node : Node ι) (rng : List Nat)
      (res : Node ι × List Nat × Option Nat),
      visit env fuel node rng = some res → WF node → WF res.1 := by
  intro fuel
  induction fuel with
  | zero => intro node rng res h _; exact Option.noConfusion h
  | succ fuel ih =>
    intro node rng res h hwf
    have hbwf : WF node.bumpN := WF_bumpN hwf
    obtain ⟨w1, w2, w3, w4⟩ := hbwf.out
    rw [visit_succ] at h
    simp only [visit_step] at h
    by_cases hact : node.bumpN.isAct = true
    · rw [if_pos hact] at h
      by_cases hterm : node.bumpN.terminal env = true
      · rw [if_pos hterm, Option.some.injEq] at h
        subst h
        exact hbwf
      · rw [if_neg hterm] at h
        by_cases hexp : node.bumpN.expanded = false
        · rw [if_pos hexp] at h
          simp only [bind, Option.bind_eq_some, Option.some.injEq] at h
          obtain ⟨n', hn', heq⟩ := h
          subst heq
          exact action_expand_WF env hn' hbwf
        · rw [if_neg hexp] at h
          cases hsp : node.bumpN.spawned_tree with
          | some st =>
            rw [hsp] at h
            simp only [bind, Option.bind_eq_some, Option.some.injEq] at h
            obtain ⟨x, hx, heq⟩ := h
            obtain ⟨n', r'⟩ := x
            subst heq
            obtain ⟨st2, a, child, cres, p, u, v, h1, h2, h3, h4, h5, h6, h7, h8, h9,
              h10, h11, h12, h13, h14, h15, h16, h17⟩ :=
              spawned_visit_spec env (visit env fuel) node.bumpN st rng (n', r') hx hact
            have hchildwf : WF child := w3 (a, child) (lookupFirst_mem a _ child h1)
            obtain ⟨rng1, hrec, _⟩ := h2
            have hcwf : WF cres.1 := ih child rng1 cres hrec hchildwf
            have hstwf : WF st := w4 st hsp
            obtain ⟨st1, rngb, hboot, vres, hvres, hst2, hvact⟩ := h17
            have hst1wf : WF st1 := by
              rcases hboot with ⟨_, bres, hb, hbeq, _⟩ | ⟨_, heq1, _⟩
              · rw [hbeq]; exact ih st rng bres hb hstwf
              · rw [heq1]; exact hstwf
            have hst2wf : WF st2 := by
              rw [hst2]; exact ih st1 rngb vres hvres hst1wf
            have hQwf : (n', r').1.Q.lo ≤ (n', r').1.Q.hi := by
              rw [h7]
              exact Interval.add_wf (calc_union_interval_wf env hperturb _ _ u h4)
                hcwf.out.2.1
            refine WF.mk _ hQwf ?_ ?_ ?_
            · rw [h8]
              exact residual_update_wf w2 hQwf (by rw [N_bumpN]; omega)
            · rw [h6]
              intro q hq
              exact updateFirst_WF a cres.1 _ w3 hcwf q hq
            · intro st' hst'
              rw [h13, Option.some.injEq] at hst'
              rw [← hst']
              exact hst2wf
          | none =>
            rw [hsp] at h
            obtain ⟨a, child, cres, p, u, v, h1, h2, h3, h4, h5, h6, h7, h8, h9,
              h10, h11, h12, h13, h14, h15, h16, h17⟩ :=
              unspawned_visit_spec env (visit env fuel) node.bumpN rng res h
            have hchildwf : WF child := w3 (a, child) (lookupFirst_mem a _ child h1)
            obtain ⟨rng1, hrec, _⟩ := h2
            have hcwf : WF cres.1 := ih child rng1 cres hrec hchildwf
            have hQwf : res.1.Q.lo ≤ res.1.Q.hi := by
              rw [h8]
              exact Interval.add_wf (calc_union_interval_wf env hperturb _ _ u h4)
                hcwf.out.2.1
            refine WF.mk _ hQwf ?_ ?_ ?_
            · rw [h9]
              exact residual_update_wf w2 hQwf (by rw [N_bumpN]; omega)
            · rw [h7]
              intro q hq
              exact updateFirst_WF a cres.1 _ w3 hcwf q hq
            · intro st' hst'
              rw [h14, hsp] at hst'
              exact Option.noConfusion hst'
    · rw [if_neg hact] at h
      obtain ⟨node1, hl, hidden, child, cres, u, v, h1, h2, h3, h4, h5, h6, h7, h8,
        h9, h10, h11, h12, h13, h14, h15, h16, h17⟩ :=
        visit_body_spec env (visit env fuel) node.bumpN rng res h
      have hn1wf : WF node1 := by
        by_cases hexp : node.bumpN.expanded = true
        · rw [if_pos hexp] at h1
          rw [h1]
          exact hbwf
        · rw [if_neg hexp] at h1
          exact sampling_expand_WF env h1 hbwf
      have hn1N : node1.N = node.N + 1 := by
        by_cases hexp : node.bumpN.expanded = true
        · rw [if_pos hexp] at h1
          rw [h1]
          simp
        · rw [if_neg hexp] at h1
          rw [(SamplingNode.expand_pres env node.bumpN node1 h1).1]
          simp
      obtain ⟨x1, x2, x3, x4⟩ := hn1wf.out
      have hchildwf : WF child := x3 (hidden, child) (lookupFirst_mem hidden _ child h3)
      obtain ⟨rng1, hrec, _⟩ := h4
      have hcwf : WF cres.1 := ih child rng1 cres hrec hchildwf
      have hQwf : res.1.Q.lo ≤ res.1.Q.hi := by
        rw [h9]
        exact Interval.add_wf (calc_union_interval_wf env hperturb _ _ u h5) hcwf.out.2.1
      refine WF.mk _ hQwf ?_ ?_ ?_
      · rw [h10]
        exact residual_update_wf x2 hQwf (by omega)
      · rw [h8]
        intro q hq
        exact updateFirst_WF hidden cres.1 _ x3 hcwf q hq
      · intro st' hst'
        rw [h16] at hst'
        exact x4 st' hst'

/-- C8: fresh nodes start at `N = 0` and are well-formed; every successful
`visit` increments the visited node's `N` by exactly one and preserves
well-formedness (in particular `Q.lower ≤ Q.upper` at every node of the
tree), given that the simplex perturbation returns ordered intervals. -/
theorem c8_visit_counter_and_intervals {ι : Type} :
    (∀ (env : Env ι) (i : ι) (ow : Option Nat) (q : ℚ) (m : Node ι),
       mkActionNode env i ow q = some m → m.N = 0 ∧ WF m) ∧
    (∀ (env : Env ι) (i : ι) (ow : Option Nat) (q : ℚ) (m : Node ι),
       mkSamplingNode env i ow q = some m → m.N = 0 ∧ WF m) ∧
    (∀ (env : Env ι),
       (∀ ivs ps e, (env.perturb_prob_simplex ivs ps e).lo ≤
         (env.perturb_prob_simplex ivs ps e).hi) →
       ∀ (fuel : Nat) (node : Node ι) (rng : List Nat)
         (res : Node ι × List Nat × Option Nat),
         visit env fuel node rng = some res → WF node →
         res.1.N = node.N + 1 ∧ WF res.1) := by
  refine ⟨?_, ?_, ?_⟩
  · intro env i ow q m hm
    refine ⟨?_, mkActionNode_WF env i ow q m hm⟩
    unfold mkActionNode at hm
    split at hm
    · injection hm with h
      subst h
      rfl
    · simp only [bind, Option.bind_eq_some, Option.some.injEq] at hm
      obtain ⟨o, ho, v, hv, hm⟩ := hm
      subst hm
      rfl
  · intro env i ow q m hm
    refine ⟨?_, mkSamplingNode_WF env i ow q m hm⟩
    unfold mkSamplingNode at hm
    simp only at hm
    split at hm
    · injection hm with h
      subst h
      rfl
    · exact Option.noConfusion hm
  · intro env hp fuel node rng res h hwf
    exact ⟨visit_N env fuel node rng res h, visit_WF env hp fuel node rng res h hwf⟩

/-- `exampleEnv` with a trivially well-formed (degenerate) simplex
perturbation, so the ordered-interval hypothesis holds at every input. -/
def wfEnv : Env Nat :=
  { exampleEnv with perturb_prob_simplex := fun _ _ _ => ⟨0, 0⟩ }

/-- Concrete witness for C8: one visit of the terminal node increments `N`
from 0 to 1 and preserves well-formedness. -/
theorem c8_visit_counter_and_intervals_witness :
    terminalNodeVisited.N = terminalNode.N + 1 ∧ WF terminalNodeVisited :=
  c8_visit_counter_and_intervals.2.2 wfEnv (fun _ _ _ => le_refl 0) 1 terminalNode []
    (terminalNodeVisited, [], none) (by with_unfolding_all rfl)
    (WF.mk _ (le_refl _) (le_refl _)
      (by intro p hp; simp [terminalNode, Node.children] at hp)
      (by intro st hst; simp [terminalNode, Node.spawned_tree] at hst))

/-! ### C1: the visit distribution -/

/-- Invariant of the (outer) root between visits: an expanded, non-spawned
`ActionNode` over the fixed root info set whose children's visit counts sum
to `N − 1` (every visit past the expanding first one increments exactly one
child). -/
def RootInv {ι : Type} (i₀ : ι) (root : Node ι) : Prop :=
  root.isAct = true ∧ root.info_set = i₀ ∧ root.expanded = true ∧
  root.spawned_tree = none ∧
  (root.children.map (fun p => p.2.N)).sum + 1 = root.N

theorem updateFirst_sum {ι : Type} (a : Nat) (c' : Node ι) :
    ∀ (l : List (Nat × Node ι)) (c : Node ι), lookupFirst a l = some c →
      ((updateFirst a c' l).map (fun p => p.2.N)).sum + c.N
        = (l.map (fun p => p.2.N)).sum + c'.N := by
  intro l
  induction l with
  | nil => intro c hc; exact Option.noConfusion hc
  | cons hd rest ih =>
    intro c hc
    simp only [lookupFirst] at hc
    by_cases hda : hd.1 = a
    · rw [if_pos hda, Option.some.injEq] at hc
      subst hc
      rw [show updateFirst a c' (hd :: rest) = (a, c') :: rest by
        simp [updateFirst, hda]]
      simp only [List.map_cons, List.sum_cons]
      omega
    · rw [if_neg hda] at hc
      rw [show updateFirst a c' (hd :: rest) = hd :: updateFirst a c' rest by
        simp [updateFirst, hda]]
      simp only [List.map_cons, List.sum_cons]
      have := ih c hc
      omega

/-- One visit of a root satisfying the invariant: the invariant is preserved
and `N` increases by exactly one (so exactly one child gains one visit). -/
theorem visit_root_step {ι : Type} (env : Env ι) (i₀ : ι)
    (hterm : env.get_game_outcome i₀ = none) (fuel : Nat) (root : Node ι)
    (rng : List Nat) (res : Node ι × List Nat × Option Nat)
    (h : visit env fuel root rng = some res) (inv : RootInv i₀ root) :
    RootInv i₀ res.1 ∧ res.1.N = root.N + 1 := by
  obtain ⟨hact, hinfo, hexp, hsp, hsum⟩ := inv
  cases fuel with
  | zero => exact Option.noConfusion h
  | succ fuel =>
    rw [visit_succ] at h
    simp only [visit_step] at h
    rw [if_pos (by simpa using hact)] at h
    rw [show root.bumpN.terminal env = false by
      simp [Node.terminal, hinfo, hterm]] at h
    simp only [Bool.false_eq_true, if_false] at h
    rw [expanded_bumpN, hexp] at h
    simp only [Bool.true_eq_false, if_false] at h
    rw [spawned_tree_bumpN, hsp] at h
    obtain ⟨a, child, cres, p, u, v, h1, h2, h3, h4, h5, h6, h7, h8, h9, h10,
      h11, h12, h13, h14, h15, h16, h17⟩ :=
      unspawned_visit_spec env (visit env fuel) root.bumpN rng res h
    obtain ⟨rng1, hrec, _⟩ := h2
    have hcN : cres.1.N = child.N + 1 := visit_N env fuel child rng1 cres hrec
    have hup := updateFirst_sum a cres.1 root.bumpN.children child h1
    refine ⟨⟨?_, ?_, ?_, ?_, ?_⟩, ?_⟩
    · rw [h15]; simpa using hact
    · rw [h11]; simpa using hinfo
    · rw [h13]; simpa using hexp
    · rw [h14]; simpa using hsp
    · rw [h7, h10]
      simp only [children_bumpN, N_bumpN] at hup ⊢
      omega
    · rw [h10]; simp

/-- The very first visit of a fresh root establishes the invariant. -/
theorem visit_root_first {ι : Type} (env : Env ι) (i₀ : ι)
    (hterm : env.get_game_outcome i₀ = none) (fuel : Nat) (root : Node ι)
    (rng : List Nat) (res : Node ι × List Nat × Option Nat)
    (h : visit env fuel root rng = some res)
    (hact : root.isAct = true) (hinfo : root.info_set = i₀)
    (hexp : root.expanded = false) (hsp : root.spawned_tree = none)
    (hN : root.N = 0) :
    RootInv i₀ res.1 ∧ res.1.N = 1 := by
  cases fuel with
  | zero => exact Option.noConfusion h
  | succ fuel =>
    rw [visit_succ] at h
    simp only [visit_step] at h
    rw [if_pos (by simpa using hact)] at h
    rw [show root.bumpN.terminal env = false by
      simp [Node.terminal, hinfo, hterm]] at h
    simp only [Bool.false_eq_true, if_false] at h
    rw [expanded_bumpN, hexp] at h
    simp only [eq_self_iff_true, if_true, bind, Option.bind_eq_some,
      Option.some.injEq] at h
    obtain ⟨n', hn', heq⟩ := h
    subst heq
    obtain ⟨e1, e2, e3, e4, e5, e6, e7, e8⟩ := ActionNode.expand_spec env root.bumpN n'
      (by simp [Node.terminal, hinfo, hterm]) hn'
    have hzero : (n'.children.map (fun p => p.2.N)).sum = 0 := by
      apply List.sum_eq_zero
      intro x hx
      obtain ⟨q, hq, hqx⟩ := List.mem_map.mp hx
      rw [← hqx]
      exact e8 q hq
    refine ⟨⟨?_, ?_, ?_, ?_, ?_⟩, ?_⟩
    · rw [e5]; simpa using hact
    · rw [e2]; simpa using hinfo
    · exact e6
    · rw [e4]; simpa using hsp
    · rw [hzero, e1]; simp [hN]
    · rw [e1]; simp [hN]

/-- The `while root.N ≤ n` loop keeps the invariant and exits exactly at
`N = n + 1`. -/
theorem visit_loop_inv {ι : Type} (env : Env ι) (i₀ : ι)
    (hterm : env.get_game_outcome i₀ = none) (fuel n : Nat) :
    ∀ (k : Nat) (root : Node ι) (rng : List Nat) (res : Node ι × List Nat),
      Tree.visit_loop env fuel n k root rng = some res →
      RootInv i₀ root → root.N ≤ n + 1 →
      RootInv i₀ res.1 ∧ res.1.N = n + 1 := by
  intro k
  induction k with
  | zero => intro root rng res h; exact Option.noConfusion h
  | succ k ih =>
    intro root rng res h inv hle
    simp only [Tree.visit_loop] at h
    by_cases hroot : root.N ≤ n
    · rw [if_pos hroot] at h
      simp only [bind, Option.bind_eq_some] at h
      obtain ⟨x, hx, hloop⟩ := h
      obtain ⟨r', rng', act⟩ := x
      obtain ⟨inv', hN'⟩ := visit_root_step env i₀ hterm fuel root rng (r', rng', act)
        hx inv
      have hN2 : r'.N = root.N + 1 := hN'
      exact ih r' rng' res hloop inv' (by omega)
    · rw [if_neg hroot, Option.some.injEq] at h
      subst h
      exact ⟨inv, by show root.N = n + 1; omega⟩

/-- C1 (amended): on a fresh non-terminal root, `get_visit_distribution(n)`
performs exactly `n + 1` visits (at least one even for `n = 0`), and for
every `n ≥ 1` it is defined and returns, per direct child action, the
fraction `childN / (rootN − 1)`, and these fractions sum exactly to 1.
(For `n = 0` it is not defined: the denominator is `rootN − 1 = 0` and the
division raises; see the counterexample.) -/
theorem c1_get_visit_distribution {ι : Type} (env : Env ι) (i₀ : ι)
    (root : Node ι) (fuel k n : Nat) (rng : List Nat)
    (d : List (Nat × ℚ)) (r' : Node ι) (rng' : List Nat)
    (hterm : env.get_game_outcome i₀ = none)
    (hact : root.isAct = true) (hinfo : root.info_set = i₀)
    (hexp : root.expanded = false) (hsp : root.spawned_tree = none)
    (hN : root.N = 0) (hn : 1 ≤ n)
    (h : Tree.get_visit_distribution env fuel k root n rng = some (d, r', rng')) :
    r'.N = n + 1 ∧
    d = r'.children.map (fun pr => (pr.1, (pr.2.N : ℚ) / ((r'.N - 1 : Nat) : ℚ))) ∧
    (d.map Prod.snd).sum = 1 := by
  simp only [Tree.get_visit_distribution, bind, Option.bind_eq_some] at h
  obtain ⟨x, hx, h⟩ := h
  obtain ⟨r1, rng1⟩ := x
  -- peel the first (expanding) visit off the loop
  cases k with
  | zero => exact Option.noConfusion hx
  | succ k =>
    simp only [Tree.visit_loop] at hx
    rw [if_pos (by omega)] at hx
    simp only [bind, Option.bind_eq_some] at hx
    obtain ⟨y, hy, hloop⟩ := hx
    obtain ⟨r0, rng0, act0⟩ := y
    obtain ⟨inv0, hN0⟩ := visit_root_first env i₀ hterm fuel root rng (r0, rng0, act0)
      hy hact hinfo hexp hsp hN
    have hN0r : r0.N = 1 := hN0
    have inv0r : RootInv i₀ r0 := inv0
    obtain ⟨inv1p, hN1p⟩ := visit_loop_inv env i₀ hterm fuel n k r0 rng0 (r1, rng1)
      hloop inv0r (by omega)
    have inv1 : RootInv i₀ r1 := inv1p
    have hN1 : r1.N = n + 1 := hN1p
    dsimp only at h
    -- the division guard does not fire: r1.N - 1 = n >= 1
    rw [if_neg (fun hcon => absurd hcon.2 (by omega))] at h
    rw [Option.some.injEq, Prod.mk.injEq] at h
    obtain ⟨hd, h⟩ := h
    rw [Prod.mk.injEq] at h
    obtain ⟨hr, hrng⟩ := h
    subst hr
    obtain ⟨_, _, _, _, hsum⟩ := inv1
    have hval : (r1.children.map (fun p => p.2.N)).sum = n := by omega
    have htN : r1.N - 1 = n := by omega
    refine ⟨hN1, by rw [← hd], ?_⟩
    rw [← hd]
    rw [show (r1.children.map
          (fun pr => (pr.1, (pr.2.N : ℚ) / ((r1.N - 1 : Nat) : ℚ)))).map Prod.snd
        = (r1.children.map (fun pr => ((pr.2.N : Nat) : ℚ))).map
            (fun x => x / ((r1.N - 1 : Nat) : ℚ)) by
      simp [List.map_map, Function.comp]]
    rw [sum_map_div]
    have hcast : (((r1.children.map (fun pr => pr.2.N)).sum : Nat) : ℚ)
        = (r1.children.map (fun pr => ((pr.2.N : Nat) : ℚ))).sum := by
      rw [Nat.cast_list_sum, List.map_map]
      rfl
    rw [← hcast, hval, htN]
    exact div_self (Nat.cast_ne_zero.mpr (by omega))

/-- Counterexample to C1 as stated ("defined for n ≥ 0"): at `n = 0` the
loop performs the single expansion visit (final `root.N = 1`, two children
created), and then `childN / (rootN − 1)` divides by `rootN − 1 = 0`, so
`get_visit_distribution` fails (Python's `ZeroDivisionError`). -/
theorem c1_get_visit_distribution_counterexample :
    ((Tree.visit_loop exampleEnv 5 0 3 exampleRoot []).map
      (fun r => (r.1.N, r.1.children.length))) = some (1, 2) ∧
    (Tree.get_visit_distribution exampleEnv 5 3 exampleRoot 0 []).isSome = false :=
  ⟨by with_unfolding_all decide, by with_unfolding_all decide⟩

/-- Concrete witness for C1 (amended): with `n = 1` on the fresh example
root, two visits happen, the returned distribution is
`[(action 0, 1), (action 1, 0)]` and it sums to 1. -/
theorem c1_get_visit_distribution_witness :
    exampleRootVisited.N = 1 + 1 ∧
    [((0 : Nat), (1 : ℚ)), (1, 0)] = exampleRootVisited.children.map
      (fun pr => (pr.1, (pr.2.N : ℚ) / ((exampleRootVisited.N - 1 : Nat) : ℚ))) ∧
    (([((0 : Nat), (1 : ℚ)), (1, 0)]).map Prod.snd).sum = 1 :=
  c1_get_visit_distribution exampleEnv 0 exampleRoot 9 9 1 []
    [(0, 1), (1, 0)] exampleRootVisited [] rfl rfl rfl rfl rfl rfl (le_refl 1)
    (by with_unfolding_all rfl)

end ISMCTS
